import Mathlib

/-!
# Huffman coding: `lab6/Huffman.cpp`

A shallow embedding of the Huffman coder of `lab6/Huffman.cpp` and the proofs of
its specified properties.

Modelling choices.

* `Node*` is the inductive type `Node`; `Node.null` is `nullptr`, and
  `Node.mk data freq left right` is a pointer to a node with these four fields.
* `char` is `Char`, `std::string` is `String`.  An `int` is an `Int`; the sum
  `left->freq + right->freq` of `buildHuffmanTree` is a 32-bit addition,
  `wrapInt32`, which wraps when the sum of the two weights overflows.
* `unordered_map<char, int>` is iterated by `buildHuffmanTree`, in an order the
  language does not fix: it is a list of entries with pairwise distinct keys,
  in iteration order, and every theorem holds for every such list.
* `unordered_map<char, string>` is only searched and assigned to by the core
  functions: it is a finite map seen through its lookup function.
* `std::priority_queue<Node*, vector<Node*>, Compare>` is a library type.  It is
  a parameter `P : PriorityQueue` of `buildHuffmanTree`, constrained only by the
  contract of the container, so that every theorem holds whatever the queue
  does with nodes of equal weight.  `listQueue` is one implementation.
* The counting loop of `main` is `countFrequencies`; the table it makes is met
  by `buildHuffmanTree` in any order, so theorems about it are stated for every
  permutation of its entries.  Its counts are exact: a count overflows an `int`
  only when one character occurs `2^31` times.
* `calculateCompressionRatio` computes in `double`.  The library computation
  `ceil(log(x) / log(2))` is a parameter `L : FloatLibrary`, constrained only
  where its value is fixed by the floating-point standard (`x = 1`, `x ≤ 0`);
  the two conversions to `int` are modelled (no result for a baseline outside
  the range of `int`, the low 32 bits for the length of the encoding), and the
  quotient returned is kept as the pair of the two `int`s.
-/

namespace Huffman

/-! ## The program -/

/-- A `Node*` of the source: `null` is `nullptr`, `mk` points to a node holding
`data`, `freq`, `left` and `right`. -/
inductive Node where
  | null : Node
  | mk (data : Char) (freq : Int) (left right : Node) : Node
deriving DecidableEq, Repr

/-- The field read `a->freq` (no node is read through `nullptr`). -/
def Node.freq : Node → Int
  | .null => 0
  | .mk _ freq _ _ => freq

/-- The constructor `Node(char data, int freq)`: both children are `nullptr`. -/
def Node.new (data : Char) (freq : Int) : Node :=
  .mk data freq .null .null

/-- The comparator `Compare::operator()`: `a->freq > b->freq`. -/
def Compare (a b : Node) : Bool :=
  decide (a.freq > b.freq)

/-- The contract of `std::priority_queue<Node*, vector<Node*>, Compare>`:
`contents` is the multiset of the pointers held; `top` is an element that
`Compare` ranks below no other element (`none` stands for `top()` of an empty
queue, which is undefined), and `pop` removes it. -/
structure PriorityQueue where
  Q : Type
  empty : Q
  push : Q → Node → Q
  top : Q → Option Node
  pop : Q → Q
  size : Q → Nat
  contents : Q → Multiset Node
  contents_empty : contents empty = 0
  contents_push : ∀ q n, contents (push q n) = n ::ₘ contents q
  size_eq : ∀ q, size q = Multiset.card (contents q)
  top_none : ∀ q, top q = none ↔ contents q = 0
  top_mem : ∀ q n, top q = some n → n ∈ contents q
  top_max : ∀ q n, top q = some n → ∀ m ∈ contents q, Compare n m = false
  contents_pop : ∀ q n, top q = some n → contents (pop q) = (contents q).erase n

/-- Outcomes other than a value.  `InvalidInput` and `UnknownSymbol` are the
explicit error results named by the specification; `emptyTop` is `pq.top()`
evaluated on an empty queue, for which C++ defines no result; `fuel` is a loop
cut off by its iteration bound; `nonFiniteToInt` and `outOfRangeToInt` are the
conversion to `int` of a `double` that is infinite or not a number, and of one
whose value is outside the range of `int`: C++ defines no result for either. -/
inductive Failure where
  | InvalidInput
  | UnknownSymbol
  | emptyTop
  | fuel
  | nonFiniteToInt
  | outOfRangeToInt
deriving DecidableEq, Repr

deriving instance DecidableEq for Except

/-- The value of an addition of two 32-bit `int`s, given the sum of the two as
integers: the sum when it is between `-2^31` and `2^31 - 1`, and the sum wrapped
into that range, as the compiled code has it, when it overflows. -/
def wrapInt32 (x : Int) : Int :=
  (x + 2147483648) % 4294967296 - 2147483648

/-- The loop `while (pq.size() > 1) { ... }` of `buildHuffmanTree`, run for at
most the given number of iterations. -/
def mergeLoop (P : PriorityQueue) : Nat → P.Q → Except Failure P.Q
  | fuel, pq =>
    if P.size pq > 1 then
      match fuel with
      | 0 => .error .fuel
      | fuel + 1 =>
        match P.top pq with
        | none => .error .emptyTop
        | some left =>
          let pq1 := P.pop pq
          match P.top pq1 with
          | none => .error .emptyTop
          | some right =>
            let pq2 := P.pop pq1
            let parent := Node.mk ',' (wrapInt32 (left.freq + right.freq)) left right
            mergeLoop P fuel (P.push pq2 parent)
    else .ok pq

/-- The first loop of `buildHuffmanTree`: one leaf per entry of the table, pushed
in iteration order. -/
def pushLeaves (P : PriorityQueue) (freqMap : List (Char × Int)) : P.Q :=
  freqMap.foldl (fun pq pair => P.push pq (Node.new pair.1 pair.2)) P.empty

/-- `buildHuffmanTree(freqMap)`. -/
def buildHuffmanTree (P : PriorityQueue) (freqMap : List (Char × Int)) :
    Except Failure Node :=
  let pq := pushLeaves P freqMap
  match mergeLoop P (P.size pq) pq with
  | .error e => .error e
  | .ok pq =>
    match P.top pq with
    | none => .error .emptyTop
    | some root => .ok root

/-- An `unordered_map<char, string>`, seen through `find`. -/
abbrev CodeTable := Char → Option String

/-- The empty table `{}`. -/
def CodeTable.empty : CodeTable := fun _ => none

/-- The assignment `codes[k] = v`. -/
def CodeTable.assign (codes : CodeTable) (k : Char) (v : String) : CodeTable :=
  fun c => if c = k then some v else codes c

/-- `generateHuffmanCodes(root, code, codes)`; the result is the table after the
call. -/
def generateHuffmanCodes : Node → String → CodeTable → CodeTable
  | .null, _, codes => codes
  | .mk data _ left right, code, codes =>
    let codes1 := if left = .null ∧ right = .null then codes.assign data code else codes
    let codes2 := generateHuffmanCodes left (code ++ "0") codes1
    generateHuffmanCodes right (code ++ "1") codes2

/-- `encodeString(str, codes)`. -/
def encodeString (str : String) (codes : CodeTable) : String :=
  str.data.foldl
    (fun encodedStr c =>
      match codes c with
      | some code => encodedStr ++ code
      | none => encodedStr)
    ""

/-- The part of the floating-point library that `calculateCompressionRatio`
uses, a parameter of the function.  `ceilLog2 x` is the `double`
`ceil(log(x) / log(2))` for the `int` `x`: an integer when it is finite, `none`
when it is not.  `log(1)` is exactly 0; `log(0)` is minus infinity and the
logarithm of a negative number is not a number. -/
structure FloatLibrary where
  ceilLog2 : Int → Option Int
  ceilLog2_one : ceilLog2 1 = some 0
  ceilLog2_nonpos : ∀ x, x ≤ 0 → ceilLog2 x = none

/-- The `double` that `calculateCompressionRatio` returns: the quotient of two
`int`s, the second not zero, or the result of a division by zero, which in
IEEE 754 arithmetic is infinite, or not a number when 0 is divided by 0. -/
inductive Ratio where
  | quotient (encodedBits orignalBits : Int)
  | infinity
  | nan
deriving DecidableEq, Repr

/-- `calculateCompressionRatio(orignalStr, encodedStr, ch_length)`.  The baseline
`orignalStr.length() * ceil(log(ch_length) / log(2))` is a `double` converted to
`int`; the length of the encoding is a `size_t` converted to `int`, which keeps
its low 32 bits; and the second is divided by the first as `double`s. -/
def calculateCompressionRatio (L : FloatLibrary) (orignalStr encodedStr : String)
    (ch_length : Int) : Except Failure Ratio :=
  match L.ceilLog2 ch_length with
  | none => .error .nonFiniteToInt
  | some bitsPerSymbol =>
    let baseline : Int := orignalStr.length * bitsPerSymbol
    if baseline < -2147483648 ∨ 2147483647 < baseline then .error .outOfRangeToInt
    else
      let orignalBits : Int := baseline
      let encodedBits : Int := wrapInt32 encodedStr.length
      if orignalBits = 0 then
        if encodedBits = 0 then .ok .nan else .ok .infinity
      else .ok (.quotient encodedBits orignalBits)

/-- A floating-point library whose `ceilLog2` is the exact value. -/
def exactLibrary : FloatLibrary where
  ceilLog2 := fun x => if x ≤ 0 then none else some (Nat.clog 2 x.toNat)
  ceilLog2_one := by
    simp [Nat.clog_one_right]
  ceilLog2_nonpos := fun x hx => by
    simp [hx]

/-- The element `top` of `listQueue` returns: a node of least `freq`. -/
def listTop : List Node → Option Node
  | [] => none
  | n :: q =>
    match listTop q with
    | none => some n
    | some m => if Compare n m then some m else some n

/-- The `pop` of `listQueue`. -/
def listPop (q : List Node) : List Node :=
  match listTop q with
  | none => q
  | some n => q.erase n

/-- A priority queue kept as the plain list of its elements: `push` adds in
front, `top` searches for a node of least `freq`. -/
def listQueue : PriorityQueue where
  Q := List Node
  empty := []
  push := fun q n => n :: q
  top := listTop
  pop := listPop
  size := List.length
  contents := fun q => (q : Multiset Node)
  contents_empty := rfl
  contents_push := fun _ _ => rfl
  size_eq := fun _ => rfl
  top_none := fun q => by
    rw [Multiset.coe_eq_zero]
    cases q with
    | nil => simp [listTop]
    | cons n q =>
      simp only [listTop]
      cases listTop q with
      | none => simp
      | some m => by_cases hc : Compare n m = true <;> simp [hc]
  top_mem := fun q n h => by
    rw [Multiset.mem_coe]
    induction q generalizing n with
    | nil => simp [listTop] at h
    | cons a q ih =>
      simp only [listTop] at h
      cases hq : listTop q with
      | none =>
        rw [hq] at h
        simp only [Option.some.injEq] at h
        simp [h]
      | some m =>
        rw [hq] at h
        cases hc : Compare a m with
        | true =>
          simp only [hc, if_true, Option.some.injEq] at h
          subst h
          exact List.mem_cons_of_mem _ (ih _ hq)
        | false =>
          simp only [hc, Bool.false_eq_true, if_false, Option.some.injEq] at h
          simp [← h]
  top_max := fun q n h => by
    have hnone : ∀ l : List Node, listTop l = none → l = [] := by
      intro l
      cases l with
      | nil => intro _; rfl
      | cons x l =>
        simp only [listTop]
        cases listTop l with
        | none => simp
        | some m => by_cases hc : Compare x m = true <;> simp [hc]
    simp only [Multiset.mem_coe]
    induction q generalizing n with
    | nil => simp [listTop] at h
    | cons a q ih =>
      simp only [listTop] at h
      cases hq : listTop q with
      | none =>
        rw [hq] at h
        simp only [Option.some.injEq] at h
        have hnil := hnone q hq
        subst hnil
        subst h
        intro m hm
        simp only [List.mem_singleton] at hm
        subst hm
        simp [Compare]
      | some b =>
        rw [hq] at h
        have ihb := ih b hq
        cases hc : Compare a b with
        | true =>
          simp only [hc, if_true, Option.some.injEq] at h
          subst h
          intro m hm
          rcases List.mem_cons.1 hm with rfl | hm
          · simp only [Compare, decide_eq_true_eq, decide_eq_false_iff_not] at hc ⊢
            omega
          · exact ihb m hm
        | false =>
          simp only [hc, Bool.false_eq_true, if_false, Option.some.injEq] at h
          subst h
          intro m hm
          rcases List.mem_cons.1 hm with rfl | hm
          · simp [Compare]
          · have := ihb m hm
            simp only [Compare, decide_eq_true_eq, decide_eq_false_iff_not] at hc this ⊢
            omega
  contents_pop := fun q n h => by
    simp [listPop, h]

/-- The leaves of a tree, left to right, each as the pair `(data, freq)`; a
leaf is a node whose two children are both `nullptr`. -/
def leaves : Node → List (Char × Int)
  | .null => []
  | .mk data freq left right =>
    if left = .null ∧ right = .null then [(data, freq)] else leaves left ++ leaves right

/-- The leaves of a tree, left to right, each with the path that leads to it
from the root: `0` for a step to a left child, `1` for a step to a right child. -/
def leafPaths : Node → List (Char × String)
  | .null => []
  | .mk data _ left right =>
    if left = .null ∧ right = .null then [(data, "")]
    else (leafPaths left).map (fun cp => (cp.1, "0" ++ cp.2)) ++
      (leafPaths right).map (fun cp => (cp.1, "1" ++ cp.2))

/-- The leaves of a tree, left to right, each with its depth (the number of
edges between the root and the leaf). -/
def leafDepths : Node → List (Char × Nat)
  | .null => []
  | .mk data _ left right =>
    if left = .null ∧ right = .null then [(data, 0)]
    else (leafDepths left).map (fun cd => (cd.1, cd.2 + 1)) ++
      (leafDepths right).map (fun cd => (cd.1, cd.2 + 1))

/-- Assigning the entries of a list to a table, one after the other, each code
written after `code`. -/
def assignAll (code : String) (entries : List (Char × String)) (codes : CodeTable) :
    CodeTable :=
  entries.foldl (fun t cp => t.assign cp.1 (code ++ cp.2)) codes

/-- One iteration of the merge loop, seen on the multiset of nodes the queue
holds: two nodes `left` and `right` leave, `left` of least weight in the queue
and `right` of least weight among the others, and their parent enters. -/
def MergeStep (M M' : Multiset Node) : Prop :=
  ∃ left right rest, M = left ::ₘ right ::ₘ rest ∧
    (∀ m ∈ M, left.freq ≤ m.freq) ∧ (∀ m ∈ right ::ₘ rest, right.freq ≤ m.freq) ∧
    M' = Node.mk ',' (wrapInt32 (left.freq + right.freq)) left right ::ₘ rest

/-- Any number of iterations of the merge loop. -/
def Merges : Multiset Node → Multiset Node → Prop :=
  Relation.ReflTransGen MergeStep

/-- The nodes `buildHuffmanTree` makes: the leaves of its first loop and the
parents of its merge loop. -/
inductive Built : Node → Prop
  | leaf (data : Char) (freq : Int) : Built (Node.new data freq)
  | parent (left right : Node) : Built left → Built right → left.freq ≤ right.freq →
      Built (Node.mk ',' (wrapInt32 (left.freq + right.freq)) left right)

/-- The leaves found in the nodes of a queue. -/
def queueLeaves (M : Multiset Node) : Multiset (Char × Int) :=
  M.bind (fun n => (leaves n : Multiset (Char × Int)))

/-- The nodes of a tree: the root and the nodes of its two subtrees. -/
def subtrees : Node → List Node
  | .null => []
  | .mk data freq left right =>
    .mk data freq left right :: (subtrees left ++ subtrees right)

/-- The decoding step of the round-trip property: the first symbol of `symbols`
whose code is a prefix of `bits`, with the bits that follow the code. -/
def matchCode (codes : CodeTable) (symbols : List Char) (bits : List Char) :
    Option (Char × List Char) :=
  symbols.findSome? (fun c =>
    match codes c with
    | some code => if code.data.isPrefixOf bits then some (c, bits.drop code.length) else none
    | none => none)

/-- The decoder of the round-trip property: it matches a code of the table as a
prefix of the remaining bits, emits its symbol, and goes on with the rest, until
no bit remains.  The first argument bounds the number of steps. -/
def decode (codes : CodeTable) (symbols : List Char) : Nat → List Char → Option (List Char)
  | _, [] => some []
  | 0, _ :: _ => none
  | fuel + 1, b :: bits =>
    match matchCode codes symbols (b :: bits) with
    | none => none
    | some (c, rest) => (decode codes symbols fuel rest).map (fun s => c :: s)

/-- The words of a list that start with the bit `b`, without that bit. -/
def tailsOf (b : Char) (ws : List (List Char)) : List (List Char) :=
  ws.filterMap (fun w =>
    match w with
    | [] => none
    | x :: t => if x = b then some t else none)

/-- The Kraft sum `Σ 2^(-length)` of a list of words. -/
def kraftWords (ws : List (List Char)) : ℚ :=
  (ws.map (fun w => ((1 : ℚ) / 2) ^ w.length)).sum

/-- The weighted length `Σ weight × length` of a multiset of (weight, length) pairs. -/
def weightedSum (ps : Multiset (Int × Nat)) : Int :=
  (ps.map (fun p => p.1 * (p.2 : Int))).sum

/-- The Kraft sum `Σ 2^(-length)` of a multiset of (weight, length) pairs. -/
def kraftSum (ps : Multiset (Int × Nat)) : ℚ :=
  (ps.map (fun p => ((1 : ℚ) / 2) ^ p.2)).sum

/-- The sum of the weights at the leaves of a tree. -/
def leafSum (t : Node) : Int :=
  ((leaves t).map Prod.snd).sum

/-- The weighted path length of a tree: the sum, over its leaves, of `freq` times
the depth of the leaf.  Below a node that is not a leaf every leaf is one step
deeper than in the subtree. -/
def cost : Node → Int
  | .null => 0
  | .mk _ _ left right =>
    if left = .null ∧ right = .null then 0
    else cost left + leafSum left + (cost right + leafSum right)

/-- The length of the code a table gives to a symbol (0 for a symbol without a
code). -/
def codeLength (codes : CodeTable) (c : Char) : Nat :=
  match codes c with
  | some code => code.length
  | none => 0

/-- The sum over the symbols of a frequency table of frequency × code length. -/
def weightedLength (freqMap : List (Char × Int)) (codes : CodeTable) : Int :=
  (freqMap.map (fun pair => pair.2 * (codeLength codes pair.1 : Int))).sum

/-- The weighted path lengths of the nodes of a queue, summed. -/
def totalCost (M : Multiset Node) : Int :=
  (M.map cost).sum

/-- The frequency table `{a:5, b:9, c:12, d:13, e:16, f:45}`. -/
def textbookTable : List (Char × Int) :=
  [('a', 5), ('b', 9), ('c', 12), ('d', 13), ('e', 16), ('f', 45)]

/-- The tree the merge loop makes of `textbookTable`. -/
def textbookTree : Node :=
  .mk ',' 100 (.mk 'f' 45 .null .null)
    (.mk ',' 55
      (.mk ',' 25 (.mk 'c' 12 .null .null) (.mk 'd' 13 .null .null))
      (.mk ',' 30
        (.mk ',' 14 (.mk 'a' 5 .null .null) (.mk 'b' 9 .null .null))
        (.mk 'e' 16 .null .null)))

/-- The test `freqMap.find(c) != freqMap.end()` of the counting loop. -/
def hasKey (freqMap : List (Char × Int)) (c : Char) : Bool :=
  freqMap.any (fun pair => pair.1 == c)

/-- The update `freqMap[c]++` of the entry of a key that is present. -/
def increment : List (Char × Int) → Char → List (Char × Int)
  | [], _ => []
  | pair :: rest, c =>
    if pair.1 = c then (pair.1, pair.2 + 1) :: rest else pair :: increment rest c

/-- The counting loop of `main`: for each character of the string, `freqMap[c]++`
when the character has an entry and `freqMap[c] = 1`, a new entry, when it has
none.  The list holds the entries of the map; the order in which
`buildHuffmanTree` later meets them is any permutation of it. -/
def countFrequencies (orignalStr : String) : List (Char × Int) :=
  orignalStr.data.foldl
    (fun freqMap c => if hasKey freqMap c then increment freqMap c else freqMap ++ [(c, 1)])
    []

/-- The number of internal nodes of a tree: the nodes that are not leaves. -/
def internalCount : Node → Nat
  | .null => 0
  | .mk _ _ left right =>
    if left = .null ∧ right = .null then 0 else 1 + internalCount left + internalCount right

/-- The Kraft sum of a code table over the symbols of a frequency table: the sum
over the symbols of `2^(-length(code))`. -/
def kraftCodes (freqMap : List (Char × Int)) (codes : CodeTable) : ℚ :=
  (freqMap.map (fun pair => ((1 : ℚ) / 2) ^ codeLength codes pair.1)).sum

/-! ## Properties -/

theorem assignAll_append (code : String) (xs ys : List (Char × String)) (codes : CodeTable) :
    assignAll code (xs ++ ys) codes = assignAll code ys (assignAll code xs codes) := by
  simp [assignAll, List.foldl_append]

theorem assignAll_map (code b : String) (xs : List (Char × String)) (codes : CodeTable) :
    assignAll code (xs.map (fun cp => (cp.1, b ++ cp.2))) codes =
      assignAll (code ++ b) xs codes := by
  induction xs generalizing codes with
  | nil => rfl
  | cons x xs ih =>
    simp only [assignAll, List.map_cons, List.foldl_cons] at ih ⊢
    rw [String.append_assoc]
    exact ih _

/-- The traversal assigns, in left-to-right order, to every leaf its path. -/
theorem generateHuffmanCodes_eq (root : Node) (code : String) (codes : CodeTable) :
    generateHuffmanCodes root code codes = assignAll code (leafPaths root) codes := by
  induction root generalizing code codes with
  | null => rfl
  | mk data freq left right ihl ihr =>
    simp only [generateHuffmanCodes, leafPaths]
    by_cases h : left = .null ∧ right = .null
    · obtain ⟨hl, hr⟩ := h
      subst hl
      subst hr
      simp [generateHuffmanCodes, assignAll]
    · simp only [h, if_false]
      rw [ihl, ihr, assignAll_append, assignAll_map, assignAll_map]

theorem Compare_eq_false {a b : Node} (h : Compare a b = false) : a.freq ≤ b.freq := by
  simp only [Compare, decide_eq_false_iff_not, not_lt] at h
  exact h

theorem top_isSome (P : PriorityQueue) (q : P.Q) (h : 0 < Multiset.card (P.contents q)) :
    ∃ n, P.top q = some n := by
  cases ht : P.top q with
  | some n => exact ⟨n, rfl⟩
  | none =>
    rw [(P.top_none q).1 ht] at h
    simp at h

theorem mergeStep_of_size (P : PriorityQueue) (q : P.Q) (h : 1 < P.size q) :
    ∃ left right, P.top q = some left ∧ P.top (P.pop q) = some right ∧
      MergeStep (P.contents q) (P.contents (P.push (P.pop (P.pop q))
        (Node.mk ',' (wrapInt32 (left.freq + right.freq)) left right))) := by
  rw [P.size_eq] at h
  obtain ⟨left, hl⟩ := top_isSome P q (by omega)
  have hlm := P.top_mem q left hl
  have hc1 := P.contents_pop q left hl
  have hcard1 : Multiset.card (P.contents (P.pop q)) + 1 = Multiset.card (P.contents q) := by
    rw [hc1, Multiset.card_erase_add_one hlm]
  obtain ⟨right, hr⟩ := top_isSome P (P.pop q) (by omega)
  have hrm := P.top_mem _ right hr
  have hc2 := P.contents_pop _ right hr
  refine ⟨left, right, hl, hr, left, right, (P.contents (P.pop q)).erase right, ?_, ?_, ?_, ?_⟩
  · rw [Multiset.cons_erase hrm, hc1, Multiset.cons_erase hlm]
  · intro m hm
    exact Compare_eq_false (P.top_max q left hl m hm)
  · intro m hm
    rw [Multiset.cons_erase hrm] at hm
    exact Compare_eq_false (P.top_max _ right hr m hm)
  · rw [P.contents_push, hc2]

theorem mergeStep_card {M M' : Multiset Node} (h : MergeStep M M') :
    Multiset.card M = Multiset.card M' + 1 := by
  obtain ⟨l, r, rest, rfl, -, -, rfl⟩ := h
  simp

/-- The merge loop ends: from a queue of `n + 1` nodes, `n` iterations are
enough, and one node is left. -/
theorem mergeLoop_ok (P : PriorityQueue) (fuel : Nat) (q : P.Q)
    (hpos : 0 < Multiset.card (P.contents q))
    (hfuel : Multiset.card (P.contents q) ≤ fuel + 1) :
    ∃ q', mergeLoop P fuel q = .ok q' ∧ Multiset.card (P.contents q') = 1 ∧
      Merges (P.contents q) (P.contents q') := by
  induction fuel generalizing q with
  | zero =>
    have h1 : ¬ (P.size q > 1) := by rw [P.size_eq]; omega
    refine ⟨q, ?_, by omega, Relation.ReflTransGen.refl⟩
    unfold mergeLoop
    simp [h1]
  | succ fuel ih =>
    by_cases h1 : P.size q > 1
    · obtain ⟨left, right, hl, hr, hstep⟩ := mergeStep_of_size P q h1
      have hcard := mergeStep_card hstep
      rw [P.size_eq] at h1
      obtain ⟨q', hq', hc', hm'⟩ := ih (P.push (P.pop (P.pop q))
        (Node.mk ',' (wrapInt32 (left.freq + right.freq)) left right)) (by omega) (by omega)
      rw [← P.size_eq] at h1
      refine ⟨q', ?_, hc', Relation.ReflTransGen.head hstep hm'⟩
      rw [← hq']
      conv_lhs => unfold mergeLoop
      simp [h1, hl, hr]
    · refine ⟨q, ?_, by rw [P.size_eq] at h1; omega, Relation.ReflTransGen.refl⟩
      unfold mergeLoop
      simp [h1]

theorem contents_foldl_push (P : PriorityQueue) (freqMap : List (Char × Int)) (q : P.Q) :
    P.contents (freqMap.foldl (fun pq pair => P.push pq (Node.new pair.1 pair.2)) q) =
      (freqMap.map (fun pair => Node.new pair.1 pair.2) : Multiset Node) + P.contents q := by
  induction freqMap generalizing q with
  | nil => simp
  | cons x xs ih =>
    rw [List.foldl_cons, ih, P.contents_push]
    simp only [List.map_cons, ← Multiset.cons_coe, Multiset.cons_add, Multiset.add_cons]

theorem contents_pushLeaves (P : PriorityQueue) (freqMap : List (Char × Int)) :
    P.contents (pushLeaves P freqMap) =
      (freqMap.map (fun pair => Node.new pair.1 pair.2) : Multiset Node) := by
  rw [pushLeaves, contents_foldl_push, P.contents_empty, add_zero]

/-- On a non-empty table `buildHuffmanTree` returns a node, the one left by the
merge loop run on the leaves of the table. -/
theorem buildHuffmanTree_ok (P : PriorityQueue) (freqMap : List (Char × Int))
    (hne : freqMap ≠ []) :
    ∃ root, buildHuffmanTree P freqMap = .ok root ∧
      Merges (freqMap.map (fun pair => Node.new pair.1 pair.2) : Multiset Node) {root} := by
  have hc := contents_pushLeaves P freqMap
  have hcard : Multiset.card (P.contents (pushLeaves P freqMap)) = freqMap.length := by
    rw [hc]
    simp
  have hlen : 0 < freqMap.length := List.length_pos.2 hne
  obtain ⟨q', hq', hc', hm'⟩ := mergeLoop_ok P (P.size (pushLeaves P freqMap))
    (pushLeaves P freqMap) (by omega) (by rw [P.size_eq]; omega)
  obtain ⟨root, hroot⟩ := top_isSome P q' (by omega)
  have hmem := P.top_mem q' root hroot
  obtain ⟨a, ha⟩ := Multiset.card_eq_one.1 hc'
  rw [ha, Multiset.mem_singleton] at hmem
  subst hmem
  refine ⟨root, ?_, ?_⟩
  · simp [buildHuffmanTree, hq', hroot]
  · rw [← hc, ← ha]
    exact hm'

theorem built_ne_null {n : Node} (h : Built n) : n ≠ .null := by
  cases h <;> simp [Node.new]

theorem leaves_parent {left : Node} (data : Char) (freq : Int) (right : Node)
    (h : left ≠ .null) :
    leaves (.mk data freq left right) = leaves left ++ leaves right := by
  simp [leaves, h]

theorem merges_invariant (I : Multiset Node → Prop)
    (hstep : ∀ M M', I M → MergeStep M M' → I M') {M M' : Multiset Node}
    (h : Merges M M') (hM : I M) : I M' := by
  induction h with
  | refl => exact hM
  | tail _ hs ih => exact hstep _ _ ih hs

theorem mergeStep_built {M M' : Multiset Node} (hM : ∀ n ∈ M, Built n)
    (h : MergeStep M M') : ∀ n ∈ M', Built n := by
  obtain ⟨l, r, rest, rfl, hl, -, rfl⟩ := h
  intro n hn
  rcases Multiset.mem_cons.1 hn with rfl | hn
  · exact Built.parent l r (hM l (by simp)) (hM r (by simp)) (hl r (by simp))
  · exact hM n (by simp [hn])

theorem mergeStep_queueLeaves {M M' : Multiset Node} (hM : ∀ n ∈ M, Built n)
    (h : MergeStep M M') : queueLeaves M' = queueLeaves M := by
  obtain ⟨l, r, rest, rfl, -, -, rfl⟩ := h
  have hl : l ≠ .null := built_ne_null (hM l (by simp))
  simp only [Huffman.queueLeaves, Multiset.cons_bind, leaves_parent _ _ _ hl]
  rw [← Multiset.coe_add, add_assoc]

theorem merges_built {M M' : Multiset Node} (h : Merges M M') (hM : ∀ n ∈ M, Built n) :
    ∀ n ∈ M', Built n :=
  merges_invariant (fun M => ∀ n ∈ M, Built n) (fun _ _ hI hs => mergeStep_built hI hs) h hM

theorem merges_queueLeaves {M M' : Multiset Node} (h : Merges M M')
    (hM : ∀ n ∈ M, Built n) : queueLeaves M' = queueLeaves M := by
  have := merges_invariant
    (fun N => (∀ n ∈ N, Built n) ∧ Huffman.queueLeaves N = Huffman.queueLeaves M)
    (fun _ _ hI hs => ⟨mergeStep_built hI.1 hs, (mergeStep_queueLeaves hI.1 hs).trans hI.2⟩) h ⟨hM, rfl⟩
  exact this.2

theorem built_initial (freqMap : List (Char × Int)) :
    ∀ n ∈ (freqMap.map (fun pair => Node.new pair.1 pair.2) : Multiset Node), Built n := by
  intro n hn
  simp only [Multiset.mem_coe, List.mem_map] at hn
  obtain ⟨p, -, rfl⟩ := hn
  exact Built.leaf _ _

theorem queueLeaves_initial (freqMap : List (Char × Int)) :
    queueLeaves (freqMap.map (fun pair => Node.new pair.1 pair.2) : Multiset Node) =
      (freqMap : Multiset (Char × Int)) := by
  induction freqMap with
  | nil => rfl
  | cons x xs ih =>
    simp only [Huffman.queueLeaves] at ih
    simp only [List.map_cons, ← Multiset.cons_coe, Huffman.queueLeaves, Multiset.cons_bind, ih]
    simp [leaves, Node.new]

/-- What every proof about the returned tree starts from: on a non-empty table
the call returns a node made by the two loops whose leaves are the entries of
the table. -/
theorem buildHuffmanTree_built (P : PriorityQueue) (freqMap : List (Char × Int))
    (hne : freqMap ≠ []) :
    ∃ root, buildHuffmanTree P freqMap = .ok root ∧ Built root ∧
      List.Perm (leaves root) freqMap := by
  obtain ⟨root, hroot, hm⟩ := buildHuffmanTree_ok P freqMap hne
  have hb := merges_built hm (built_initial freqMap)
  have hl := merges_queueLeaves hm (built_initial freqMap)
  rw [queueLeaves_initial] at hl
  refine ⟨root, hroot, hb root (by simp), ?_⟩
  simp only [Huffman.queueLeaves, Multiset.singleton_bind] at hl
  exact Quotient.exact hl

theorem built_subtrees {root : Node} (h : Built root) : ∀ n ∈ subtrees root, Built n := by
  induction h with
  | leaf data freq =>
    intro n hn
    simp only [Node.new, Huffman.subtrees, List.append_nil, List.mem_singleton] at hn
    subst hn
    exact Built.leaf data freq
  | parent left right hl hr hle ihl ihr =>
    intro n hn
    simp only [Huffman.subtrees, List.mem_cons, List.mem_append] at hn
    rcases hn with rfl | hn | hn
    · exact Built.parent left right hl hr hle
    · exact ihl n hn
    · exact ihr n hn

/-- C4: for every non-empty frequency table, the tree returned by
`buildHuffmanTree` has exactly one leaf per distinct symbol of the table: the
multiset of `(data, freq)` pairs at its leaves is the multiset of the entries of
the table, and no symbol is at two leaves. -/
theorem buildHuffmanTree_leaves (P : PriorityQueue) (freqMap : List (Char × Int))
    (hkeys : (freqMap.map Prod.fst).Nodup) (hne : freqMap ≠ []) :
    ∃ root, buildHuffmanTree P freqMap = .ok root ∧
      (leaves root : Multiset (Char × Int)) = (freqMap : Multiset (Char × Int)) ∧
      ((leaves root).map Prod.fst).Nodup := by
  obtain ⟨root, hroot, -, hperm⟩ := buildHuffmanTree_built P freqMap hne
  exact ⟨root, hroot, Quotient.sound hperm, (hperm.map Prod.fst).nodup_iff.2 hkeys⟩

/-- The table `{a:4, b:3, c:2}` has distinct keys and is not empty. -/
theorem buildHuffmanTree_leaves_witness :
    ∃ root, buildHuffmanTree listQueue [('a', 4), ('b', 3), ('c', 2)] = .ok root ∧
      (leaves root : Multiset (Char × Int)) = ([('a', 4), ('b', 3), ('c', 2)] : List (Char × Int)) ∧
      ((leaves root).map Prod.fst).Nodup :=
  buildHuffmanTree_leaves listQueue [('a', 4), ('b', 3), ('c', 2)] (by decide) (by decide)

/-- A sum that fits a 32-bit `int` is not changed by the 32-bit addition. -/
theorem wrapInt32_of_range (x : Int) (h1 : -2147483648 ≤ x) (h2 : x ≤ 2147483647) :
    wrapInt32 x = x := by
  unfold wrapInt32
  omega

theorem leafSum_nonneg (t : Node) (hnn : ∀ p ∈ leaves t, 0 ≤ p.2) : 0 ≤ leafSum t := by
  apply List.sum_nonneg
  intro x hx
  obtain ⟨p, hp, rfl⟩ := List.mem_map.1 hx
  exact hnn p hp

theorem leafSum_parent {left : Node} (data : Char) (freq : Int) (right : Node)
    (h : left ≠ .null) :
    leafSum (.mk data freq left right) = leafSum left + leafSum right := by
  simp [leafSum, leaves_parent _ _ _ h]

/-- In a tree made by the two loops whose leaf weights are not negative and sum
to at most `2^31 - 1`, no addition overflows: the weight of the root is the sum
of the weights at its leaves. -/
theorem built_freq {t : Node} (h : Built t) (hnn : ∀ p ∈ leaves t, 0 ≤ p.2)
    (hsum : leafSum t ≤ 2147483647) : t.freq = leafSum t := by
  induction h with
  | leaf data freq => simp [Node.new, Node.freq, leafSum, leaves]
  | parent left right hl _ _ ihl ihr =>
    have hne := built_ne_null hl
    rw [leaves_parent _ _ _ hne] at hnn
    rw [leafSum_parent _ _ _ hne] at hsum ⊢
    have hnl : ∀ p ∈ leaves left, 0 ≤ p.2 := fun p hp => hnn p (List.mem_append_left _ hp)
    have hnr : ∀ p ∈ leaves right, 0 ≤ p.2 := fun p hp => hnn p (List.mem_append_right _ hp)
    have h0l := leafSum_nonneg left hnl
    have h0r := leafSum_nonneg right hnr
    have hfl := ihl hnl (by omega)
    have hfr := ihr hnr (by omega)
    show wrapInt32 (left.freq + right.freq) = _
    rw [hfl, hfr]
    exact wrapInt32_of_range _ (by omega) (by omega)

/-- In such a tree every internal node has the sum of the weights of its two
children as its weight. -/
theorem built_internal_freq {t : Node} (h : Built t) (hnn : ∀ p ∈ leaves t, 0 ≤ p.2)
    (hsum : leafSum t ≤ 2147483647) :
    ∀ data freq left right, Node.mk data freq left right ∈ subtrees t →
      ¬ (left = .null ∧ right = .null) → freq = left.freq + right.freq := by
  induction h with
  | leaf d f =>
    intro data freq left right hmem hint
    simp only [Node.new, subtrees, List.append_nil, List.mem_singleton, Node.mk.injEq] at hmem
    exact absurd ⟨hmem.2.2.1, hmem.2.2.2⟩ hint
  | parent l r hl hr _ ihl ihr =>
    have hne := built_ne_null hl
    rw [leaves_parent _ _ _ hne] at hnn
    rw [leafSum_parent _ _ _ hne] at hsum
    have hnl : ∀ p ∈ leaves l, 0 ≤ p.2 := fun p hp => hnn p (List.mem_append_left _ hp)
    have hnr : ∀ p ∈ leaves r, 0 ≤ p.2 := fun p hp => hnn p (List.mem_append_right _ hp)
    have h0l := leafSum_nonneg l hnl
    have h0r := leafSum_nonneg r hnr
    intro data freq left right hmem hint
    simp only [subtrees, List.mem_cons, List.mem_append, Node.mk.injEq] at hmem
    rcases hmem with ⟨-, hf, rfl, rfl⟩ | hmem | hmem
    · rw [hf, built_freq hl hnl (by omega), built_freq hr hnr (by omega)]
      exact wrapInt32_of_range _ (by omega) (by omega)
    · exact ihl hnl (by omega) data freq left right hmem hint
    · exact ihr hnr (by omega) data freq left right hmem hint

/-- C5, as the code has it: for every non-empty frequency table whose counts are
not negative and sum to at most `2^31 - 1`, so that no addition of two weights
overflows the 32-bit `int`, every internal node of the tree returned by
`buildHuffmanTree` (every node of the tree that has a child) has `freq` equal to
`left.freq + right.freq`. -/
theorem buildHuffmanTree_internal_freq (P : PriorityQueue) (freqMap : List (Char × Int))
    (hne : freqMap ≠ []) (hnn : ∀ pair ∈ freqMap, 0 ≤ pair.2)
    (hsum : (freqMap.map Prod.snd).sum ≤ 2147483647) :
    ∃ root, buildHuffmanTree P freqMap = .ok root ∧
      ∀ data freq left right, Node.mk data freq left right ∈ subtrees root →
        ¬ (left = .null ∧ right = .null) → freq = left.freq + right.freq := by
  obtain ⟨root, hroot, hb, hperm⟩ := buildHuffmanTree_built P freqMap hne
  refine ⟨root, hroot, ?_⟩
  apply built_internal_freq hb
  · intro p hp
    exact hnn p (hperm.mem_iff.1 hp)
  · rw [leafSum, (hperm.map Prod.snd).sum_eq]
    exact hsum

/-- The table `{a:4, b:3, c:2}` is not empty, and its counts are not negative
and sum to 9. -/
theorem buildHuffmanTree_internal_freq_witness :
    ∃ root, buildHuffmanTree listQueue [('a', 4), ('b', 3), ('c', 2)] = .ok root ∧
      ∀ data freq left right, Node.mk data freq left right ∈ subtrees root →
        ¬ (left = .null ∧ right = .null) → freq = left.freq + right.freq :=
  buildHuffmanTree_internal_freq listQueue [('a', 4), ('b', 3), ('c', 2)] (by decide)
    (by decide) (by decide)

/-- C5 fails as stated: on the table `{a:2147483647, b:1}` the addition
`1 + 2147483647` overflows, and the root, an internal node, has `freq`
`-2147483648`, which is not `left.freq + right.freq`. -/
theorem internal_freq_overflow :
    ¬ ∃ root, buildHuffmanTree listQueue [('a', 2147483647), ('b', 1)] = .ok root ∧
      ∀ data freq left right, Node.mk data freq left right ∈ subtrees root →
        ¬ (left = .null ∧ right = .null) → freq = left.freq + right.freq := by
  rintro ⟨root, hroot, h⟩
  have hb : buildHuffmanTree listQueue [('a', 2147483647), ('b', 1)] =
      .ok (.mk ',' (-2147483648) (.mk 'b' 1 .null .null) (.mk 'a' 2147483647 .null .null)) := by
    decide
  rw [hb] at hroot
  cases hroot
  have := h ',' (-2147483648) (.mk 'b' 1 .null .null) (.mk 'a' 2147483647 .null .null)
    (by simp [subtrees]) (by simp)
  simp [Node.freq] at this

theorem assignAll_of_not_mem (code : String) (xs : List (Char × String)) (codes : CodeTable)
    (c : Char) (h : c ∉ xs.map Prod.fst) : assignAll code xs codes c = codes c := by
  induction xs generalizing codes with
  | nil => rfl
  | cons x xs ih =>
    simp only [List.map_cons, List.mem_cons, not_or] at h
    simp only [assignAll, List.foldl_cons] at ih ⊢
    rw [ih _ h.2]
    simp [CodeTable.assign, h.1]

theorem assignAll_of_mem (code : String) (xs : List (Char × String)) (codes : CodeTable)
    (hkeys : (xs.map Prod.fst).Nodup) (c : Char) (p : String) (h : (c, p) ∈ xs) :
    assignAll code xs codes c = some (code ++ p) := by
  induction xs generalizing codes with
  | nil => simp at h
  | cons x xs ih =>
    simp only [List.map_cons, List.nodup_cons] at hkeys
    have hcons : assignAll code (x :: xs) codes = assignAll code xs (codes.assign x.1 (code ++ x.2)) :=
      rfl
    rw [hcons]
    rcases List.mem_cons.1 h with rfl | h
    · rw [assignAll_of_not_mem _ _ _ _ hkeys.1]
      simp [CodeTable.assign]
    · exact ih _ hkeys.2 h

theorem leafPaths_keys (t : Node) : (leafPaths t).map Prod.fst = (leaves t).map Prod.fst := by
  induction t with
  | null => rfl
  | mk data freq left right ihl ihr =>
    simp only [leafPaths, leaves]
    by_cases h : left = .null ∧ right = .null
    · simp [h]
    · simp only [h, if_false, List.map_append, List.map_map, ← ihl, ← ihr]
      rfl

theorem leafDepths_eq (t : Node) :
    leafDepths t = (leafPaths t).map (fun cp => (cp.1, cp.2.length)) := by
  induction t with
  | null => rfl
  | mk data freq left right ihl ihr =>
    simp only [leafPaths, leafDepths]
    by_cases h : left = .null ∧ right = .null
    · simp [h]
    · simp only [h, if_false, List.map_append, List.map_map, ihl, ihr]
      congr 1

/-- The table made from the empty table has exactly the entries of `leafPaths`,
when no symbol is at two leaves. -/
theorem generateHuffmanCodes_iff (root : Node) (h : ((leaves root).map Prod.fst).Nodup)
    (c : Char) (s : String) :
    generateHuffmanCodes root "" CodeTable.empty c = some s ↔ (c, s) ∈ leafPaths root := by
  rw [generateHuffmanCodes_eq]
  rw [← leafPaths_keys] at h
  constructor
  · intro hc
    by_cases hmem : c ∈ (leafPaths root).map Prod.fst
    · obtain ⟨⟨c', p⟩, hp, rfl⟩ := List.mem_map.1 hmem
      rw [assignAll_of_mem _ _ _ h _ _ hp] at hc
      simp only [String.empty_append, Option.some.injEq] at hc
      subst hc
      exact hp
    · rw [assignAll_of_not_mem _ _ _ _ hmem] at hc
      simp [CodeTable.empty] at hc
  · intro hp
    rw [assignAll_of_mem _ _ _ h _ _ hp]
    simp

/-- C6: for every tree whose leaves carry pairwise distinct symbols,
`generateHuffmanCodes(root, "", {})` maps each leaf's symbol to exactly the path
from the root to that leaf (`0` for a step to a left child, `1` for a step to a
right child), the table has no other entries, and each code's length is the
depth of its leaf. -/
theorem generateHuffmanCodes_paths (root : Node) (h : ((leaves root).map Prod.fst).Nodup) :
    (∀ c s, generateHuffmanCodes root "" CodeTable.empty c = some s ↔
      (c, s) ∈ leafPaths root) ∧
    (∀ c s, generateHuffmanCodes root "" CodeTable.empty c = some s →
      (c, s.length) ∈ leafDepths root) := by
  refine ⟨generateHuffmanCodes_iff root h, ?_⟩
  intro c s hc
  rw [leafDepths_eq]
  exact List.mem_map.2 ⟨(c, s), (generateHuffmanCodes_iff root h c s).1 hc, rfl⟩

/-- The tree with leaves `a`, `c`, `b` has pairwise distinct symbols at its
leaves. -/
theorem generateHuffmanCodes_paths_witness :
    (∀ c s, generateHuffmanCodes (.mk ',' 9 (.mk 'a' 4 .null .null)
        (.mk ',' 5 (.mk 'c' 2 .null .null) (.mk 'b' 3 .null .null))) "" CodeTable.empty c = some s ↔
      (c, s) ∈ leafPaths (.mk ',' 9 (.mk 'a' 4 .null .null)
        (.mk ',' 5 (.mk 'c' 2 .null .null) (.mk 'b' 3 .null .null)))) ∧
    (∀ c s, generateHuffmanCodes (.mk ',' 9 (.mk 'a' 4 .null .null)
        (.mk ',' 5 (.mk 'c' 2 .null .null) (.mk 'b' 3 .null .null))) "" CodeTable.empty c = some s →
      (c, s.length) ∈ leafDepths (.mk ',' 9 (.mk 'a' 4 .null .null)
        (.mk ',' 5 (.mk 'c' 2 .null .null) (.mk 'b' 3 .null .null)))) :=
  generateHuffmanCodes_paths (.mk ',' 9 (.mk 'a' 4 .null .null)
    (.mk ',' 5 (.mk 'c' 2 .null .null) (.mk 'b' 3 .null .null))) (by decide)

/-- The loop body of `encodeString`. -/
theorem encodeString_foldl (codes : CodeTable) (l : List Char) (acc : String) :
    l.foldl
      (fun encodedStr c =>
        match codes c with
        | some code => encodedStr ++ code
        | none => encodedStr) acc =
    acc ++ String.join (l.filterMap codes) := by
  induction l generalizing acc with
  | nil => simp [String.join]
  | cons c l ih =>
    rw [List.foldl_cons, ih]
    cases hc : codes c with
    | none => simp [List.filterMap_cons, hc]
    | some code =>
      simp only [List.filterMap_cons, hc]
      have hj : String.join (code :: List.filterMap codes l) =
          code ++ String.join (List.filterMap codes l) := by
        simp only [String.join, List.foldl_cons, String.empty_append]
        generalize List.filterMap codes l = xs
        have hgen : ∀ (a b : String), List.foldl (fun r s => r ++ s) (a ++ b) xs =
            a ++ List.foldl (fun r s => r ++ s) b xs := by
          induction xs with
          | nil => intro a b; rfl
          | cons x xs ihx =>
            intro a b
            rw [List.foldl_cons, List.foldl_cons, String.append_assoc, ihx]
        have := hgen code ""
        simpa using this
      rw [hj, String.append_assoc]

theorem encodeString_eq (str : String) (codes : CodeTable) :
    encodeString str codes = String.join (str.data.filterMap codes) := by
  rw [encodeString, encodeString_foldl, String.empty_append]

theorem length_join (l : List String) :
    (String.join l).length = (l.map String.length).sum := by
  have hgen : ∀ (a : String), (List.foldl (fun r s => r ++ s) a l).length =
      a.length + (l.map String.length).sum := by
    induction l with
    | nil => intro a; simp
    | cons x xs ih =>
      intro a
      rw [List.foldl_cons, ih, String.length_append, List.map_cons, List.sum_cons, Nat.add_assoc]
  have := hgen ""
  simpa [String.join] using this

/-- C7: for every code table and every symbol sequence all of whose symbols have
an entry in the table, `encodeString` returns the concatenation of the symbols'
codes in input order, and its length is the sum of the code lengths of the
symbols. -/
theorem encodeString_concat (str : String) (codes : CodeTable)
    (h : ∀ c ∈ str.data, codes c ≠ none) :
    encodeString str codes = String.join (str.data.map (fun c => (codes c).getD "")) ∧
    (encodeString str codes).length =
      (str.data.map (fun c => ((codes c).getD "").length)).sum := by
  have hmap : str.data.filterMap codes = str.data.map (fun c => (codes c).getD "") := by
    generalize str.data = l at h
    induction l with
    | nil => rfl
    | cons c l ih =>
      have hc := h c (List.mem_cons_self _ _)
      have ih := ih (fun x hx => h x (List.mem_cons_of_mem _ hx))
      cases hcc : codes c with
      | none => exact absurd hcc hc
      | some code => simp [List.filterMap_cons, hcc, ih]
  rw [encodeString_eq, hmap, length_join, List.map_map]
  exact ⟨rfl, rfl⟩

/-- The string `abca` has only symbols with a code in the table. -/
theorem encodeString_concat_witness :
    encodeString "abca" ((CodeTable.empty.assign 'a' "0").assign 'b' "11" |>.assign 'c' "10") =
      String.join ("abca".data.map (fun c =>
        (((CodeTable.empty.assign 'a' "0").assign 'b' "11" |>.assign 'c' "10") c).getD "")) ∧
    (encodeString "abca"
        ((CodeTable.empty.assign 'a' "0").assign 'b' "11" |>.assign 'c' "10")).length =
      ("abca".data.map (fun c =>
        ((((CodeTable.empty.assign 'a' "0").assign 'b' "11" |>.assign 'c' "10") c).getD "").length)).sum :=
  encodeString_concat "abca" ((CodeTable.empty.assign 'a' "0").assign 'b' "11" |>.assign 'c' "10")
    (by decide)

/-- C8: `encodeString` drops the symbols that have no entry in the code table:
for every string `s` and table `codes`, `encodeString(s, codes)` is
`encodeString(s', codes)` where `s'` is `s` without the symbols absent from
`codes`.  The call always returns a result: `encodeString` is a total function,
with no error outcome. -/
theorem encodeString_skips (str : String) (codes : CodeTable) :
    encodeString str codes =
      encodeString (String.mk (str.data.filter (fun c => (codes c).isSome))) codes := by
  rw [encodeString_eq, encodeString_eq]
  congr 1
  generalize str.data = l
  induction l with
  | nil => rfl
  | cons c l ih =>
    cases hc : codes c with
    | none => simp [List.filterMap_cons, List.filter_cons, hc, ih]
    | some code => simp [List.filterMap_cons, List.filter_cons, hc, ih]

theorem merges_of_card_le_one {M M' : Multiset Node} (h : Merges M M')
    (hM : Multiset.card M ≤ 1) : M' = M := by
  induction h with
  | refl => rfl
  | tail _ hs ih =>
    subst ih
    obtain ⟨l, r, rest, rfl, -, -, -⟩ := hs
    simp at hM

theorem buildHuffmanTree_single (P : PriorityQueue) (c : Char) (f : Int) :
    buildHuffmanTree P [(c, f)] = .ok (Node.new c f) := by
  obtain ⟨root, hroot, hm⟩ := buildHuffmanTree_ok P [(c, f)] (by simp)
  have h := merges_of_card_le_one hm (by simp)
  simp only [List.map_cons, List.map_nil, Multiset.coe_singleton, Multiset.singleton_inj] at h
  rw [hroot, h]

theorem buildHuffmanTree_nil (P : PriorityQueue) :
    buildHuffmanTree P [] = .error .emptyTop := by
  have hsize : P.size P.empty = 0 := by rw [P.size_eq, P.contents_empty]; rfl
  have htop : P.top P.empty = none := (P.top_none _).2 P.contents_empty
  have hloop : mergeLoop P 0 P.empty = .ok P.empty := by
    unfold mergeLoop
    simp [hsize]
  simp [buildHuffmanTree, pushLeaves, hsize, hloop, htop]

/-- C9, as the code has it: for every frequency table with exactly one symbol,
`buildHuffmanTree` returns a single leaf and `generateHuffmanCodes` on that tree,
called with the empty starting path as `main` does, makes the table whose only
entry gives the symbol the empty code; encoding `k` occurrences of the symbol
yields the empty string, which is that code repeated `k` times. -/
theorem single_symbol_table (P : PriorityQueue) (c : Char) (f : Int) :
    buildHuffmanTree P [(c, f)] = .ok (Node.new c f) ∧
    generateHuffmanCodes (Node.new c f) "" CodeTable.empty = CodeTable.empty.assign c "" ∧
    ∀ k, encodeString (String.mk (List.replicate k c))
        (generateHuffmanCodes (Node.new c f) "" CodeTable.empty) =
      String.join (List.replicate k "") ∧
      String.join (List.replicate k "") = "" := by
  have hgen : generateHuffmanCodes (Node.new c f) "" CodeTable.empty =
      CodeTable.empty.assign c "" := by
    simp [generateHuffmanCodes, Node.new]
  refine ⟨buildHuffmanTree_single P c f, hgen, ?_⟩
  intro k
  rw [encodeString_eq, hgen]
  have hfm : (List.replicate k c).filterMap (CodeTable.empty.assign c "") =
      List.replicate k "" := by
    induction k with
    | zero => rfl
    | succ k ih => simp [List.replicate_succ, List.filterMap_cons, CodeTable.assign, ih]
  refine ⟨by rw [hfm], ?_⟩
  clear hfm
  induction k with
  | zero => rfl
  | succ k ih =>
    simpa [List.replicate_succ, String.join] using ih

/-- C9 fails as stated: on the table `{a:3}` the code given to `a` is not a
non-empty string. -/
theorem single_symbol_code_is_empty :
    ¬ ∃ root code, buildHuffmanTree listQueue [('a', 3)] = .ok root ∧
      generateHuffmanCodes root "" CodeTable.empty 'a' = some code ∧ code ≠ "" := by
  rintro ⟨root, code, hroot, hcode, hne⟩
  have hb : buildHuffmanTree listQueue [('a', 3)] = .ok (Node.new 'a' 3) := by decide
  rw [hb] at hroot
  cases hroot
  have hc : generateHuffmanCodes (Node.new 'a' 3) "" CodeTable.empty 'a' = some "" := by decide
  rw [hc] at hcode
  cases hcode
  exact hne rfl

/-- C10, as the code has it: `buildHuffmanTree` never fails with an
`InvalidInput` error.  It returns a tree exactly when the table is non-empty;
on an empty table it evaluates `pq.top()` on an empty queue, for which no result
is defined. -/
theorem buildHuffmanTree_returns_iff (P : PriorityQueue) :
    (∀ freqMap, buildHuffmanTree P freqMap ≠ .error .InvalidInput) ∧
    (∀ freqMap, (∃ root, buildHuffmanTree P freqMap = .ok root) ↔ freqMap ≠ []) ∧
    buildHuffmanTree P [] = .error .emptyTop := by
  refine ⟨?_, ?_, buildHuffmanTree_nil P⟩
  · intro freqMap
    by_cases hne : freqMap = []
    · subst hne
      rw [buildHuffmanTree_nil]
      simp
    · obtain ⟨root, hroot, -⟩ := buildHuffmanTree_ok P freqMap hne
      rw [hroot]
      simp
  · intro freqMap
    constructor
    · rintro ⟨root, hroot⟩ rfl
      rw [buildHuffmanTree_nil] at hroot
      cases hroot
    · intro hne
      obtain ⟨root, hroot, -⟩ := buildHuffmanTree_ok P freqMap hne
      exact ⟨root, hroot⟩

/-- C10 fails as stated: on the empty table the call does not end in an
`InvalidInput` error. -/
theorem buildHuffmanTree_nil_not_InvalidInput :
    buildHuffmanTree listQueue [] ≠ .error .InvalidInput := by
  decide

theorem leafPaths_pairwise (t : Node) :
    (leafPaths t).Pairwise
      (fun a b => ¬ a.2.data <+: b.2.data ∧ ¬ b.2.data <+: a.2.data) := by
  induction t with
  | null => exact List.Pairwise.nil
  | mk data freq left right ihl ihr =>
    simp only [leafPaths]
    by_cases h : left = .null ∧ right = .null
    · simp [h]
    · simp only [h, if_false]
      rw [List.pairwise_append]
      refine ⟨?_, ?_, ?_⟩
      · rw [List.pairwise_map]
        refine ihl.imp ?_
        intro a b hab
        simpa [String.data_append, List.cons_prefix_cons] using hab
      · rw [List.pairwise_map]
        refine ihr.imp ?_
        intro a b hab
        simpa [String.data_append, List.cons_prefix_cons] using hab
      · intro a ha b hb
        obtain ⟨a', -, rfl⟩ := List.mem_map.1 ha
        obtain ⟨b', -, rfl⟩ := List.mem_map.1 hb
        simp [String.data_append, List.cons_prefix_cons]

theorem leafPaths_prefix_free (t : Node)
    (x y : Char) (cx cy : String) (hxy : x ≠ y)
    (hx : (x, cx) ∈ leafPaths t) (hy : (y, cy) ∈ leafPaths t) : ¬ cx.data <+: cy.data := by
  have hsymm : Symmetric (fun a b : Char × String =>
      ¬ a.2.data <+: b.2.data ∧ ¬ b.2.data <+: a.2.data) := fun a b hab => ⟨hab.2, hab.1⟩
  have hne : (x, cx) ≠ (y, cy) := fun he => hxy (congrArg Prod.fst he)
  exact ((leafPaths_pairwise t).forall hsymm hx hy hne).1

/-- The facts about the generated table that the proofs on codes start from: on
a table with distinct keys every symbol of the table gets the path of its leaf,
and nothing else gets a code. -/
theorem buildHuffmanTree_codes (P : PriorityQueue) (freqMap : List (Char × Int))
    (hkeys : (freqMap.map Prod.fst).Nodup) (hne : freqMap ≠ []) :
    ∃ root, buildHuffmanTree P freqMap = .ok root ∧ Built root ∧
      List.Perm (leaves root) freqMap ∧ ((leaves root).map Prod.fst).Nodup ∧
      (∀ c s, generateHuffmanCodes root "" CodeTable.empty c = some s ↔
        (c, s) ∈ leafPaths root) ∧
      (∀ c ∈ freqMap.map Prod.fst, ∃ s, generateHuffmanCodes root "" CodeTable.empty c = some s) := by
  obtain ⟨root, hroot, hb, hperm⟩ := buildHuffmanTree_built P freqMap hne
  have hnd : ((leaves root).map Prod.fst).Nodup := (hperm.map Prod.fst).nodup_iff.2 hkeys
  refine ⟨root, hroot, hb, hperm, hnd, generateHuffmanCodes_iff root hnd, ?_⟩
  intro c hc
  have hc1 : c ∈ (leafPaths root).map Prod.fst := by
    rw [leafPaths_keys]
    exact (hperm.map Prod.fst).mem_iff.2 hc
  obtain ⟨⟨c', p⟩, hp, rfl⟩ := List.mem_map.1 hc1
  exact ⟨p, (generateHuffmanCodes_iff root hnd _ _).2 hp⟩

/-- C1: for every non-empty frequency table, in the code table produced by
`generateHuffmanCodes(buildHuffmanTree(freqMap), "", {})` no code is a prefix of
another: any two distinct symbols `x` and `y` of the table have codes, and
`code(x)` is not a prefix of `code(y)`. -/
theorem codes_prefix_free (P : PriorityQueue) (freqMap : List (Char × Int))
    (hkeys : (freqMap.map Prod.fst).Nodup) (hne : freqMap ≠ []) :
    ∃ root, buildHuffmanTree P freqMap = .ok root ∧
      ∀ x ∈ freqMap.map Prod.fst, ∀ y ∈ freqMap.map Prod.fst, x ≠ y →
        ∃ cx cy, generateHuffmanCodes root "" CodeTable.empty x = some cx ∧
          generateHuffmanCodes root "" CodeTable.empty y = some cy ∧
          ¬ cx.data <+: cy.data := by
  obtain ⟨root, hroot, -, -, hnd, hiff, hdef⟩ := buildHuffmanTree_codes P freqMap hkeys hne
  refine ⟨root, hroot, ?_⟩
  intro x hx y hy hxy
  obtain ⟨cx, hcx⟩ := hdef x hx
  obtain ⟨cy, hcy⟩ := hdef y hy
  exact ⟨cx, cy, hcx, hcy,
    leafPaths_prefix_free root x y cx cy hxy ((hiff _ _).1 hcx) ((hiff _ _).1 hcy)⟩

/-- The table `{a:4, b:3, c:2}` has distinct keys and is not empty. -/
theorem codes_prefix_free_witness :
    ∃ root, buildHuffmanTree listQueue [('a', 4), ('b', 3), ('c', 2)] = .ok root ∧
      ∀ x ∈ [('a', (4 : Int)), ('b', 3), ('c', 2)].map Prod.fst,
        ∀ y ∈ [('a', (4 : Int)), ('b', 3), ('c', 2)].map Prod.fst, x ≠ y →
        ∃ cx cy, generateHuffmanCodes root "" CodeTable.empty x = some cx ∧
          generateHuffmanCodes root "" CodeTable.empty y = some cy ∧
          ¬ cx.data <+: cy.data :=
  codes_prefix_free listQueue [('a', 4), ('b', 3), ('c', 2)] (by decide) (by decide)

theorem encodeString_cons (codes : CodeTable) (c : Char) (s : List Char) (code : String)
    (hc : codes c = some code) :
    encodeString (String.mk (c :: s)) codes = code ++ encodeString (String.mk s) codes := by
  simp only [encodeString, List.foldl_cons, hc, String.empty_append]
  rw [encodeString_foldl, encodeString_foldl, String.empty_append]

theorem matchCode_eq (codes : CodeTable) (symbols : List Char)
    (hpf : ∀ x ∈ symbols, ∀ y ∈ symbols, x ≠ y → ∀ cx cy, codes x = some cx →
      codes y = some cy → ¬ cx.data <+: cy.data)
    (c : Char) (hc : c ∈ symbols) (code : String) (hcode : codes c = some code)
    (rest : List Char) :
    matchCode codes symbols (code.data ++ rest) = some (c, rest) := by
  have hall : ∀ x ∈ symbols, ∀ v,
      (match codes x with
        | some cx =>
          if cx.data.isPrefixOf (code.data ++ rest) then
            some (x, (code.data ++ rest).drop cx.length) else none
        | none => none) = some v → v = (c, rest) := by
    intro x hx v hv
    cases hcx : codes x with
    | none => simp [hcx] at hv
    | some cx =>
      simp only [hcx] at hv
      by_cases hp : cx.data.isPrefixOf (code.data ++ rest) = true
      · simp only [hp, if_true, Option.some.injEq] at hv
        have hp1 : cx.data <+: code.data ++ rest := List.isPrefixOf_iff_prefix.1 hp
        have hp2 : code.data <+: code.data ++ rest := List.prefix_append _ _
        have hxc : x = c := by
          by_contra hne
          rcases List.prefix_or_prefix_of_prefix hp1 hp2 with h | h
          · exact hpf x hx c hc hne cx code hcx hcode h
          · exact hpf c hc x hx (Ne.symm hne) code cx hcode hcx h
        subst hxc
        rw [hcode] at hcx
        cases hcx
        rw [← hv]
        have hlen : code.length = code.data.length := rfl
        rw [hlen, List.drop_left]
      · simp [hp] at hv
  have hself : (match codes c with
        | some cx =>
          if cx.data.isPrefixOf (code.data ++ rest) then
            some (c, (code.data ++ rest).drop cx.length) else none
        | none => none) = some (c, rest) := by
    have hp : code.data.isPrefixOf (code.data ++ rest) = true :=
      List.isPrefixOf_iff_prefix.2 (List.prefix_append _ _)
    have hlen : code.length = code.data.length := rfl
    simp only [hcode, hp, if_true, hlen, List.drop_left]
  unfold matchCode
  induction symbols with
  | nil => simp at hc
  | cons x xs ih =>
    rw [List.findSome?_cons]
    cases hfx : (match codes x with
        | some cx =>
          if cx.data.isPrefixOf (code.data ++ rest) then
            some (x, (code.data ++ rest).drop cx.length) else none
        | none => none) with
    | some v =>
      rw [hall x (List.mem_cons_self _ _) v hfx]
    | none =>
      have hxc : c ≠ x := by
        rintro rfl
        rw [hself] at hfx
        cases hfx
      have hcxs : c ∈ xs := by
        rcases List.mem_cons.1 hc with h | h
        · exact absurd h hxc
        · exact h
      exact ih (fun a ha b hb => hpf a (List.mem_cons_of_mem _ ha) b (List.mem_cons_of_mem _ hb))
        hcxs (fun a ha => hall a (List.mem_cons_of_mem _ ha))

/-- Decoding undoes encoding, for any table whose codes are non-empty and none a
prefix of another. -/
theorem decode_encodeString (codes : CodeTable) (symbols : List Char)
    (hdef : ∀ c ∈ symbols, ∃ code, codes c = some code ∧ code.data ≠ [])
    (hpf : ∀ x ∈ symbols, ∀ y ∈ symbols, x ≠ y → ∀ cx cy, codes x = some cx →
      codes y = some cy → ¬ cx.data <+: cy.data)
    (s : List Char) (hs : ∀ c ∈ s, c ∈ symbols) (fuel : Nat)
    (hfuel : (encodeString (String.mk s) codes).length ≤ fuel) :
    decode codes symbols fuel (encodeString (String.mk s) codes).data = some s := by
  induction s generalizing fuel with
  | nil =>
    have : encodeString (String.mk []) codes = "" := rfl
    rw [this]
    cases fuel <;> rfl
  | cons c s ih =>
    have hc := hs c (List.mem_cons_self _ _)
    obtain ⟨code, hcode, hne⟩ := hdef c hc
    rw [encodeString_cons codes c s code hcode] at hfuel ⊢
    rw [String.data_append]
    rw [String.length_append] at hfuel
    obtain ⟨b, bs, hb⟩ := List.exists_cons_of_ne_nil hne
    have hlen : 0 < code.length := by
      have hl : code.length = code.data.length := rfl
      rw [hl, hb]
      simp
    cases fuel with
    | zero => omega
    | succ fuel =>
      have hm := matchCode_eq codes symbols hpf c hc code hcode
        (encodeString (String.mk s) codes).data
      rw [hb] at hm ⊢
      rw [List.cons_append] at hm ⊢
      simp only [decode, hm]
      rw [ih (fun x hx => hs x (List.mem_cons_of_mem _ hx)) fuel (by omega)]
      rfl

theorem exists_other_key (keys : List Char) (hnd : keys.Nodup) (h2 : 2 ≤ keys.length)
    (c : Char) : ∃ y ∈ keys, y ≠ c := by
  match keys, hnd, h2 with
  | a :: b :: rest, hnd, _ =>
    have hab : a ≠ b := by
      intro h
      subst h
      simp at hnd
    by_cases hc : a = c
    · subst hc
      exact ⟨b, by simp, Ne.symm hab⟩
    · exact ⟨a, by simp, hc⟩

/-- C2: round trip.  For every frequency table with at least two distinct
symbols and every sequence `s` of symbols of the table, decoding
`encodeString(s, codes)`, by matching again and again a code of the table as a
prefix of the remaining bits, returns exactly `s`, where `codes` is the table
generated from `buildHuffmanTree(freqMap)`; and `encodeString` is injective on
such sequences. -/
theorem encodeString_roundtrip (P : PriorityQueue) (freqMap : List (Char × Int))
    (hkeys : (freqMap.map Prod.fst).Nodup) (h2 : 2 ≤ freqMap.length)
    (s : String) (hs : ∀ c ∈ s.data, c ∈ freqMap.map Prod.fst) :
    ∃ root, buildHuffmanTree P freqMap = .ok root ∧
      decode (generateHuffmanCodes root "" CodeTable.empty) (freqMap.map Prod.fst)
        (encodeString s (generateHuffmanCodes root "" CodeTable.empty)).length
        (encodeString s (generateHuffmanCodes root "" CodeTable.empty)).data = some s.data ∧
      ∀ s' : String, (∀ c ∈ s'.data, c ∈ freqMap.map Prod.fst) →
        encodeString s' (generateHuffmanCodes root "" CodeTable.empty) =
          encodeString s (generateHuffmanCodes root "" CodeTable.empty) → s' = s := by
  have hne : freqMap ≠ [] := by
    rintro rfl
    simp at h2
  obtain ⟨root, hroot, -, -, -, hiff, hdef⟩ := buildHuffmanTree_codes P freqMap hkeys hne
  have hpf : ∀ x ∈ freqMap.map Prod.fst, ∀ y ∈ freqMap.map Prod.fst, x ≠ y → ∀ cx cy,
      generateHuffmanCodes root "" CodeTable.empty x = some cx →
      generateHuffmanCodes root "" CodeTable.empty y = some cy → ¬ cx.data <+: cy.data := by
    intro x _ y _ hxy cx cy hcx hcy
    exact leafPaths_prefix_free root x y cx cy hxy ((hiff _ _).1 hcx) ((hiff _ _).1 hcy)
  have hdef2 : ∀ c ∈ freqMap.map Prod.fst, ∃ code,
      generateHuffmanCodes root "" CodeTable.empty c = some code ∧ code.data ≠ [] := by
    intro c hc
    obtain ⟨code, hcode⟩ := hdef c hc
    refine ⟨code, hcode, ?_⟩
    intro hnil
    obtain ⟨y, hy, hyc⟩ := exists_other_key _ hkeys (by simpa using h2) c
    obtain ⟨cy, hcy⟩ := hdef y hy
    apply hpf c hc y hy (Ne.symm hyc) code cy hcode hcy
    rw [hnil]
    exact List.nil_prefix
  have hdec : ∀ t : String, (∀ c ∈ t.data, c ∈ freqMap.map Prod.fst) →
      decode (generateHuffmanCodes root "" CodeTable.empty) (freqMap.map Prod.fst)
        (encodeString t (generateHuffmanCodes root "" CodeTable.empty)).length
        (encodeString t (generateHuffmanCodes root "" CodeTable.empty)).data = some t.data :=
    fun t ht => decode_encodeString _ _ hdef2 hpf t.data ht _ (le_refl _)
  refine ⟨root, hroot, hdec s hs, ?_⟩
  intro s' hs' heq
  have h1 := hdec s' hs'
  rw [heq, hdec s hs] at h1
  simp only [Option.some.injEq] at h1
  exact String.ext h1.symm

/-- The table `{a:4, b:3, c:2}` has three distinct symbols, and `abcab` is made
of them. -/
theorem encodeString_roundtrip_witness :
    ∃ root, buildHuffmanTree listQueue [('a', 4), ('b', 3), ('c', 2)] = .ok root ∧
      decode (generateHuffmanCodes root "" CodeTable.empty)
        ([('a', (4 : Int)), ('b', 3), ('c', 2)].map Prod.fst)
        (encodeString "abcab" (generateHuffmanCodes root "" CodeTable.empty)).length
        (encodeString "abcab" (generateHuffmanCodes root "" CodeTable.empty)).data =
          some "abcab".data ∧
      ∀ s' : String, (∀ c ∈ s'.data, c ∈ [('a', (4 : Int)), ('b', 3), ('c', 2)].map Prod.fst) →
        encodeString s' (generateHuffmanCodes root "" CodeTable.empty) =
          encodeString "abcab" (generateHuffmanCodes root "" CodeTable.empty) → s' = "abcab" :=
  encodeString_roundtrip listQueue [('a', 4), ('b', 3), ('c', 2)] (by decide) (by decide)
    "abcab" (by decide)

theorem mem_tailsOf (b : Char) (ws : List (List Char)) (t : List Char) :
    t ∈ tailsOf b ws ↔ b :: t ∈ ws := by
  induction ws with
  | nil => simp [tailsOf]
  | cons w ws ih =>
    simp only [tailsOf, List.filterMap_cons] at ih ⊢
    match w with
    | [] => simp [ih]
    | x :: u =>
      by_cases hx : x = b
      · subst hx
        simp only [if_true, List.mem_cons, ih, List.cons.injEq, true_and]
      · have hx' : ¬ b = x := fun h => hx h.symm
        simp only [hx, if_false, ih, List.mem_cons, List.cons.injEq, hx', false_and, false_or]

theorem tailsOf_pairwise (b : Char) (ws : List (List Char))
    (hpf : ws.Pairwise (fun u v => ¬ u <+: v ∧ ¬ v <+: u)) :
    (tailsOf b ws).Pairwise (fun u v => ¬ u <+: v ∧ ¬ v <+: u) := by
  refine List.Pairwise.filterMap _ ?_ hpf
  intro u v huv s hs t ht
  match u, v with
  | [], _ => simp at hs
  | _ :: _, [] => simp at ht
  | x :: u', y :: v' =>
    by_cases hx : x = b
    · by_cases hy : y = b
      · subst hx
        subst hy
        simp only [if_true, Option.mem_def, Option.some.injEq] at hs ht
        subst hs
        subst ht
        simpa [List.cons_prefix_cons] using huv
      · simp [hy] at ht
    · simp [hx] at hs

theorem kraftWords_split (ws : List (List Char))
    (hbin : ∀ w ∈ ws, ∀ b ∈ w, b = '0' ∨ b = '1') (hne : [] ∉ ws) :
    kraftWords ws = (kraftWords (tailsOf '0' ws) + kraftWords (tailsOf '1' ws)) / 2 := by
  induction ws with
  | nil => simp [kraftWords, tailsOf]
  | cons w ws ih =>
    have ih := ih (fun u hu => hbin u (List.mem_cons_of_mem _ hu))
      (fun h => hne (List.mem_cons_of_mem _ h))
    match w, hbin, hne with
    | [], _, hne => exact absurd (List.mem_cons_self _ _) hne
    | x :: t, hbin, _ =>
      have hx := hbin (x :: t) (List.mem_cons_self _ _) x (List.mem_cons_self _ _)
      simp only [kraftWords, tailsOf, List.map_cons, List.sum_cons, List.filterMap_cons] at ih ⊢
      rcases hx with rfl | rfl
      · simp only [if_true, show ¬ ('0' = '1') by decide, if_false, List.map_cons, List.sum_cons,
          List.length_cons, pow_succ]
        rw [ih]
        ring
      · simp only [if_true, show ¬ ('1' = '0') by decide, if_false, List.map_cons, List.sum_cons,
          List.length_cons, pow_succ]
        rw [ih]
        ring

theorem eq_singleton_of_nil_mem (ws : List (List Char))
    (hpf : ws.Pairwise (fun u v => ¬ u <+: v ∧ ¬ v <+: u)) (h : [] ∈ ws) : ws = [[]] := by
  match ws, hpf, h with
  | w :: rest, hpf, h =>
    rw [List.pairwise_cons] at hpf
    rcases List.mem_cons.1 h with h | h
    · subst h
      match rest, hpf with
      | [], _ => rfl
      | v :: _, hpf => exact absurd List.nil_prefix (hpf.1 v (List.mem_cons_self _ _)).1
    · exact absurd List.nil_prefix (hpf.1 [] h).2

/-- Kraft's inequality: the words of a binary code none of which is a prefix of
another have Kraft sum at most 1. -/
theorem kraftWords_le_one (n : Nat) (ws : List (List Char)) (hlen : ∀ w ∈ ws, w.length ≤ n)
    (hbin : ∀ w ∈ ws, ∀ b ∈ w, b = '0' ∨ b = '1')
    (hpf : ws.Pairwise (fun u v => ¬ u <+: v ∧ ¬ v <+: u)) : kraftWords ws ≤ 1 := by
  induction n generalizing ws with
  | zero =>
    match ws, hlen, hpf with
    | [], _, _ => simp [kraftWords]
    | w :: rest, hlen, hpf =>
      have hw : w = [] := List.length_eq_zero.1 (Nat.le_zero.1 (hlen w (List.mem_cons_self _ _)))
      subst hw
      rw [eq_singleton_of_nil_mem _ hpf (List.mem_cons_self _ _)]
      simp [kraftWords]
  | succ n ih =>
    by_cases hnil : [] ∈ ws
    · rw [eq_singleton_of_nil_mem _ hpf hnil]
      simp [kraftWords]
    · rw [kraftWords_split ws hbin hnil]
      have h0 : kraftWords (tailsOf '0' ws) ≤ 1 := by
        apply ih _ _ _ (tailsOf_pairwise _ _ hpf)
        · intro t ht
          have := hlen _ ((mem_tailsOf _ _ _).1 ht)
          simp only [List.length_cons] at this
          omega
        · intro t ht b hb
          exact hbin _ ((mem_tailsOf _ _ _).1 ht) b (List.mem_cons_of_mem _ hb)
      have h1 : kraftWords (tailsOf '1' ws) ≤ 1 := by
        apply ih _ _ _ (tailsOf_pairwise _ _ hpf)
        · intro t ht
          have := hlen _ ((mem_tailsOf _ _ _).1 ht)
          simp only [List.length_cons] at this
          omega
        · intro t ht b hb
          exact hbin _ ((mem_tailsOf _ _ _).1 ht) b (List.mem_cons_of_mem _ hb)
      linarith

theorem weightedSum_cons (p : Int × Nat) (ps : Multiset (Int × Nat)) :
    weightedSum (p ::ₘ ps) = p.1 * (p.2 : Int) + weightedSum ps := by
  simp [weightedSum]

theorem kraftSum_cons (p : Int × Nat) (ps : Multiset (Int × Nat)) :
    kraftSum (p ::ₘ ps) = ((1 : ℚ) / 2) ^ p.2 + kraftSum ps := by
  simp [kraftSum]

theorem kraftSum_nonneg (ps : Multiset (Int × Nat)) : 0 ≤ kraftSum ps := by
  induction ps using Multiset.induction_on with
  | empty => simp [kraftSum]
  | cons p ps ih =>
    rw [kraftSum_cons]
    positivity

theorem weightedSum_nonneg (ps : Multiset (Int × Nat)) (h : ∀ p ∈ ps, 0 ≤ p.1) :
    0 ≤ weightedSum ps := by
  induction ps using Multiset.induction_on with
  | empty => simp [weightedSum]
  | cons p ps ih =>
    rw [weightedSum_cons]
    have h1 := h p (Multiset.mem_cons_self _ _)
    have h2 := ih (fun q hq => h q (Multiset.mem_cons_of_mem hq))
    positivity

/-- A multiset of lengths bounded by `L` has Kraft sum `k / 2^L` for a natural `k`. -/
theorem kraftSum_eq_div (ps : Multiset (Int × Nat)) (L : Nat) (h : ∀ p ∈ ps, p.2 ≤ L) :
    ∃ k : Nat, kraftSum ps * 2 ^ L = k := by
  induction ps using Multiset.induction_on with
  | empty => exact ⟨0, by simp [kraftSum]⟩
  | cons p ps ih =>
    obtain ⟨k, hk⟩ := ih (fun q hq => h q (Multiset.mem_cons_of_mem hq))
    have hp := h p (Multiset.mem_cons_self _ _)
    obtain ⟨d, hd⟩ := Nat.exists_eq_add_of_le hp
    refine ⟨2 ^ d + k, ?_⟩
    rw [kraftSum_cons, add_mul, hk, hd, pow_add]
    have h2 : ((1 : ℚ) / 2) ^ p.2 * (2 ^ p.2 * 2 ^ d) = 2 ^ d := by
      rw [← mul_assoc, ← mul_pow]
      norm_num
    rw [h2]
    push_cast
    ring

/-- A least weight can be given a greatest length without making the weighted
sum larger: the weights and the lengths stay the same multisets. -/
theorem exists_min_longest (N : Multiset (Int × Nat)) (m : Int) (hm : m ∈ N.map Prod.fst)
    (hmin : ∀ w ∈ N.map Prod.fst, m ≤ w) :
    ∃ L R, (∀ p ∈ R, p.2 ≤ L) ∧ m ::ₘ R.map Prod.fst = N.map Prod.fst ∧
      L ::ₘ R.map Prod.snd = N.map Prod.snd ∧
      weightedSum ((m, L) ::ₘ R) ≤ weightedSum N := by
  obtain ⟨⟨m', lm⟩, hpm, hm'⟩ := Multiset.mem_map.1 hm
  simp only at hm'
  subst hm'
  obtain ⟨N0, rfl⟩ := Multiset.exists_cons_of_mem hpm
  by_cases hall : ∀ p ∈ N0, p.2 ≤ lm
  · exact ⟨lm, N0, hall, by simp, by simp, le_refl _⟩
  · push_neg at hall
    obtain ⟨q, hq, hlt⟩ := hall
    have hne : N0.toFinset.Nonempty := ⟨q, by simpa using hq⟩
    obtain ⟨⟨w, L⟩, hwL, hmax⟩ := Finset.exists_max_image N0.toFinset Prod.snd hne
    rw [Multiset.mem_toFinset] at hwL
    have hmax' : ∀ p ∈ N0, p.2 ≤ L := fun p hp => hmax p (by simpa using hp)
    have hL : lm ≤ L := le_of_lt (lt_of_lt_of_le hlt (hmax' q hq))
    obtain ⟨R0, rfl⟩ := Multiset.exists_cons_of_mem hwL
    have hmw : m' ≤ w := hmin w (by simp)
    refine ⟨L, (w, lm) ::ₘ R0, ?_, ?_, ?_, ?_⟩
    · intro p hp
      rcases Multiset.mem_cons.1 hp with rfl | hp
      · exact hL
      · exact hmax' p (Multiset.mem_cons_of_mem hp)
    · simp
    · simp only [Multiset.map_cons]
      exact Multiset.cons_swap _ _ _
    · simp only [weightedSum_cons]
      have hL' : (lm : Int) ≤ (L : Int) := by exact_mod_cast hL
      nlinarith [mul_nonneg (sub_nonneg.2 hmw) (sub_nonneg.2 hL')]

theorem kraftSum_of_lengths (ps qs : Multiset (Int × Nat))
    (h : ps.map Prod.snd = qs.map Prod.snd) : kraftSum ps = kraftSum qs := by
  have hp : kraftSum ps = ((ps.map Prod.snd).map (fun l => ((1 : ℚ) / 2) ^ l)).sum := by
    simp [kraftSum, Multiset.map_map]
  have hq : kraftSum qs = ((qs.map Prod.snd).map (fun l => ((1 : ℚ) / 2) ^ l)).sum := by
    simp [kraftSum, Multiset.map_map]
  rw [hp, hq, h]

/-- The step of the optimality proof.  Lengths with Kraft sum at most 1 for the
weights `a`, `b` and `rest`, where `a` is least among all and `b` least among
the others, give lengths with Kraft sum at most 1 for the weights `a + b` and
`rest` whose weighted sum is smaller by at least `a + b`. -/
theorem kraft_merge (ps : Multiset (Int × Nat)) (a b : Int) (rest : Multiset Int)
    (hw : ps.map Prod.fst = a ::ₘ b ::ₘ rest)
    (ha : ∀ w ∈ a ::ₘ b ::ₘ rest, a ≤ w) (hb : ∀ w ∈ b ::ₘ rest, b ≤ w)
    (hnn : 0 ≤ a) (hk : kraftSum ps ≤ 1) :
    ∃ ps' : Multiset (Int × Nat), ps'.map Prod.fst = (a + b) ::ₘ rest ∧
      kraftSum ps' ≤ 1 ∧ weightedSum ps' + (a + b) ≤ weightedSum ps := by
  obtain ⟨L1, R1, hR1, hf1, hs1, hle1⟩ :=
    exists_min_longest ps a (by rw [hw]; simp) (by rw [hw]; exact ha)
  have hf1' : R1.map Prod.fst = b ::ₘ rest := by
    rw [hw] at hf1
    exact (Multiset.cons_inj_right a).1 hf1
  obtain ⟨L2, R2, hR2, hf2, hs2, hle2⟩ :=
    exists_min_longest R1 b (by rw [hf1']; simp) (by rw [hf1']; exact hb)
  have hf2' : R2.map Prod.fst = rest := by
    rw [hf1'] at hf2
    exact (Multiset.cons_inj_right b).1 hf2
  have hL21 : L2 ≤ L1 := by
    have : L2 ∈ R1.map Prod.snd := by rw [← hs2]; simp
    obtain ⟨p, hp, hpL⟩ := Multiset.mem_map.1 this
    rw [← hpL]
    exact hR1 p hp
  -- the Kraft sum and the weighted sum of the rearranged lengths
  have hk2 : kraftSum ((a, L1) ::ₘ (b, L2) ::ₘ R2) ≤ 1 := by
    have : kraftSum ((a, L1) ::ₘ (b, L2) ::ₘ R2) = kraftSum ps := by
      apply kraftSum_of_lengths
      simp only [Multiset.map_cons]
      rw [hs2, hs1]
    rw [this]
    exact hk
  have hw2 : weightedSum ((a, L1) ::ₘ (b, L2) ::ₘ R2) ≤ weightedSum ps := by
    refine le_trans ?_ hle1
    rw [weightedSum_cons, weightedSum_cons (a, L1)]
    exact add_le_add_left hle2 _
  rw [kraftSum_cons, kraftSum_cons] at hk2
  rw [weightedSum_cons, weightedSum_cons] at hw2
  simp only at hk2 hw2
  have hpos1 : (0 : ℚ) < ((1 : ℚ) / 2) ^ L1 := by positivity
  have hR2nn := kraftSum_nonneg R2
  -- the second length is not zero
  have hL2 : L2 ≠ 0 := by
    rintro rfl
    rw [pow_zero] at hk2
    linarith
  obtain ⟨l, rfl⟩ := Nat.exists_eq_succ_of_ne_zero hL2
  obtain ⟨k, hkR⟩ := kraftSum_eq_div R2 (l + 1) hR2
  refine ⟨(a + b, l) ::ₘ R2, by simp [hf2'], ?_, ?_⟩
  · rw [kraftSum_cons]
    simp only
    have h2pos : (0 : ℚ) < 2 ^ (l + 1) := by positivity
    have hsum : ((1 : ℚ) / 2) ^ (l + 1) * 2 ^ (l + 1) = 1 := by
      rw [← mul_pow]
      norm_num
    -- multiply the Kraft inequality by 2 ^ (l + 1)
    have hlt : (1 : ℚ) + k < 2 ^ (l + 1) := by
      have h1 : (((1 : ℚ) / 2) ^ L1 + (((1 : ℚ) / 2) ^ (l + 1) + kraftSum R2)) * 2 ^ (l + 1)
          ≤ 1 * 2 ^ (l + 1) := mul_le_mul_of_nonneg_right hk2 (le_of_lt h2pos)
      rw [add_mul, add_mul, hsum, hkR, one_mul] at h1
      have h3 : (0 : ℚ) < ((1 : ℚ) / 2) ^ L1 * 2 ^ (l + 1) := mul_pos hpos1 h2pos
      linarith
    have hnat : 1 + k < 2 ^ (l + 1) := by exact_mod_cast hlt
    have hnat2 : 2 + k ≤ 2 ^ (l + 1) := by omega
    have hq : (2 : ℚ) + k ≤ 2 ^ (l + 1) := by exact_mod_cast hnat2
    have hhalf : ((1 : ℚ) / 2) ^ l * 2 ^ (l + 1) = 2 := by
      rw [pow_succ, ← mul_assoc, ← mul_pow]
      norm_num
    have hgoal : (((1 : ℚ) / 2) ^ l + kraftSum R2) * 2 ^ (l + 1) ≤ 1 * 2 ^ (l + 1) := by
      rw [add_mul, hhalf, hkR, one_mul]
      exact hq
    exact le_of_mul_le_mul_right hgoal h2pos
  · rw [weightedSum_cons]
    simp only
    have hL : ((l + 1 : Nat) : Int) ≤ (L1 : Int) := by exact_mod_cast hL21
    push_cast at hL hw2 ⊢
    nlinarith [mul_nonneg hnn (sub_nonneg.2 hL)]

theorem sum_leaves_eq_cost (t : Node) (k : Nat) (g : Char → Nat)
    (hg : ∀ c p, (c, p) ∈ leafPaths t → g c = k + p.length) :
    ((leaves t).map (fun pair => pair.2 * (g pair.1 : Int))).sum = cost t + k * leafSum t := by
  induction t generalizing k with
  | null => simp [leaves, cost, leafSum]
  | mk data freq left right ihl ihr =>
    by_cases h : left = .null ∧ right = .null
    · have hd := hg data "" (by simp [leafPaths, h])
      simp only [leaves, cost, leafSum, h, and_self, if_true, List.map_cons, List.map_nil,
        List.sum_cons, List.sum_nil, hd]
      simp
      ring
    · have hl := ihl (k + 1) (fun c p hp => by
        have := hg c ("0" ++ p) (by
          simp only [leafPaths, h, if_false, List.mem_append, List.mem_map]
          exact Or.inl ⟨(c, p), hp, rfl⟩)
        rw [this, String.length_append]
        have : "0".length = 1 := rfl
        omega)
      have hr := ihr (k + 1) (fun c p hp => by
        have := hg c ("1" ++ p) (by
          simp only [leafPaths, h, if_false, List.mem_append, List.mem_map]
          exact Or.inr ⟨(c, p), hp, rfl⟩)
        rw [this, String.length_append]
        have : "1".length = 1 := rfl
        omega)
      simp only [leaves, cost, leafSum, h, if_false, List.map_append, List.sum_append] at hl hr ⊢
      rw [hl, hr]
      push_cast
      ring

theorem cost_parent {left : Node} (hne : left ≠ .null) (right : Node) (freq : Int) :
    cost (.mk ',' freq left right) = cost left + cost right + (leafSum left + leafSum right) := by
  simp only [cost, hne, false_and, if_false]
  ring

/-- The merge loop is optimal: whatever lengths with Kraft sum at most 1 are given
to the nodes of the queue, the tree the loop ends with costs no more than the
nodes of the queue put at these depths. -/
theorem merges_optimal {M : Multiset Node} {root : Node} (h : Merges M {root}) :
    (∀ n ∈ M, Built n ∧ 0 ≤ n.freq ∧ n.freq = leafSum n) →
    (M.map Node.freq).sum ≤ 2147483647 →
    ∀ ps : Multiset (Int × Nat), ps.map Prod.fst = M.map Node.freq → kraftSum ps ≤ 1 →
      cost root ≤ totalCost M + weightedSum ps := by
  have h' : Relation.ReflTransGen MergeStep M {root} := h
  induction h' using Relation.ReflTransGen.head_induction_on with
  | refl =>
    intro hM _ ps hps _
    have hnn : 0 ≤ weightedSum ps := by
      apply weightedSum_nonneg
      intro p hp
      have hmem : p.1 ∈ ps.map Prod.fst := Multiset.mem_map_of_mem _ hp
      rw [hps] at hmem
      obtain ⟨n, hn, hnf⟩ := Multiset.mem_map.1 hmem
      rw [← hnf]
      exact (hM n hn).2.1
    have ht : totalCost {root} = cost root := by simp [totalCost]
    rw [ht]
    linarith
  | head hstep hrest ih =>
    intro hM hsum ps hps hk
    obtain ⟨l, r, rest, rfl, hl, hr, rfl⟩ := hstep
    obtain ⟨hbl, h0l, hfl⟩ := hM l (by simp)
    obtain ⟨hbr, h0r, hfr⟩ := hM r (by simp)
    have hps' : ps.map Prod.fst = l.freq ::ₘ r.freq ::ₘ rest.map Node.freq := by
      rw [hps]
      simp
    obtain ⟨ps', hf', hk', hw'⟩ := kraft_merge ps l.freq r.freq (rest.map Node.freq) hps'
      (by
        intro w hw
        rw [← Multiset.map_cons, ← Multiset.map_cons] at hw
        obtain ⟨n, hn, rfl⟩ := Multiset.mem_map.1 hw
        exact hl n hn)
      (by
        intro w hw
        rw [← Multiset.map_cons] at hw
        obtain ⟨n, hn, rfl⟩ := Multiset.mem_map.1 hw
        exact hr n hn)
      h0l hk
    -- the weights left in the queue are not negative, so the two merged fit an `int`
    have hrest0 : 0 ≤ (rest.map Node.freq).sum := by
      apply Multiset.sum_nonneg
      intro x hx
      obtain ⟨n, hn, rfl⟩ := Multiset.mem_map.1 hx
      exact (hM n (by simp [hn])).2.1
    simp only [Multiset.map_cons, Multiset.sum_cons] at hsum
    have hexact : wrapInt32 (l.freq + r.freq) = l.freq + r.freq :=
      wrapInt32_of_range _ (by omega) (by omega)
    have hne := built_ne_null hbl
    have hM' : ∀ n ∈ Node.mk ',' (wrapInt32 (l.freq + r.freq)) l r ::ₘ rest,
        Built n ∧ 0 ≤ n.freq ∧ n.freq = leafSum n := by
      intro n hn
      rcases Multiset.mem_cons.1 hn with rfl | hn
      · refine ⟨Built.parent l r hbl hbr (hl r (by simp)), ?_, ?_⟩
        · show 0 ≤ wrapInt32 (l.freq + r.freq)
          rw [hexact]
          omega
        · show wrapInt32 (l.freq + r.freq) = _
          rw [hexact, leafSum_parent _ _ _ hne, hfl, hfr]
      · exact hM n (by simp [hn])
    have hsum' : ((Node.mk ',' (wrapInt32 (l.freq + r.freq)) l r ::ₘ rest).map Node.freq).sum ≤
        2147483647 := by
      rw [Multiset.map_cons, Multiset.sum_cons]
      show wrapInt32 (l.freq + r.freq) + _ ≤ _
      rw [hexact]
      omega
    have hfst : ps'.map Prod.fst =
        (Node.mk ',' (wrapInt32 (l.freq + r.freq)) l r ::ₘ rest).map Node.freq := by
      rw [hf', Multiset.map_cons]
      show _ = wrapInt32 (l.freq + r.freq) ::ₘ _
      rw [hexact]
    have hih := ih hrest hM' hsum' ps' hfst hk'
    have hc := cost_parent hne r (wrapInt32 (l.freq + r.freq))
    simp only [totalCost, Multiset.map_cons, Multiset.sum_cons] at hih ⊢
    rw [hc, ← hfl, ← hfr] at hih
    linarith

theorem kraftWords_prefix_free (ws : List (List Char))
    (hbin : ∀ w ∈ ws, ∀ b ∈ w, b = '0' ∨ b = '1')
    (hpf : ws.Pairwise (fun u v => ¬ u <+: v ∧ ¬ v <+: u)) : kraftWords ws ≤ 1 := by
  refine kraftWords_le_one (ws.map List.length).sum ws ?_ hbin hpf
  intro w hw
  exact List.single_le_sum (fun _ _ => Nat.zero_le _) _ (List.mem_map_of_mem _ hw)

theorem codeLength_eq (codes : CodeTable) (c : Char) :
    codeLength codes c = ((codes c).getD "").data.length := by
  unfold codeLength
  cases codes c <;> rfl

theorem leafPaths_binary (t : Node) :
    ∀ cp ∈ leafPaths t, ∀ b ∈ cp.2.data, b = '0' ∨ b = '1' := by
  induction t with
  | null => simp [leafPaths]
  | mk data freq left right ihl ihr =>
    intro cp hcp b hb
    simp only [leafPaths] at hcp
    by_cases h : left = .null ∧ right = .null
    · simp only [h, and_self, if_true, List.mem_singleton] at hcp
      subst hcp
      simp at hb
    · simp only [h, if_false, List.mem_append, List.mem_map] at hcp
      rcases hcp with ⟨a, ha, rfl⟩ | ⟨a, ha, rfl⟩
      · simp only [String.data_append, List.mem_append] at hb
        rcases hb with hb | hb
        · left
          simpa using hb
        · exact ihl a ha b hb
      · simp only [String.data_append, List.mem_append] at hb
        rcases hb with hb | hb
        · right
          simpa using hb
        · exact ihr a ha b hb

/-- The tree the merge loop makes of the leaves of a table with positive counts
that sum to at most `2^31 - 1` costs no more than any binary code over the symbols of the table in
which no code is a prefix of another. -/
theorem merges_weightedLength_le (freqMap : List (Char × Int))
    (hkeys : (freqMap.map Prod.fst).Nodup) (hpos : ∀ pair ∈ freqMap, 0 < pair.2)
    (hsum : (freqMap.map Prod.snd).sum ≤ 2147483647) (root : Node)
    (hm : Merges (freqMap.map (fun pair => Node.new pair.1 pair.2) : Multiset Node) {root})
    (hperm : List.Perm (leaves root) freqMap)
    (hiff : ∀ c s, generateHuffmanCodes root "" CodeTable.empty c = some s ↔
      (c, s) ∈ leafPaths root)
    (other : CodeTable)
    (hdef : ∀ x ∈ freqMap.map Prod.fst, ∃ cx, other x = some cx ∧
      ∀ b ∈ cx.data, b = '0' ∨ b = '1')
    (hpf : ∀ x ∈ freqMap.map Prod.fst, ∀ y ∈ freqMap.map Prod.fst, x ≠ y →
      ∀ cx cy, other x = some cx → other y = some cy → ¬ cx.data <+: cy.data) :
    weightedLength freqMap (generateHuffmanCodes root "" CodeTable.empty) ≤
      weightedLength freqMap other := by
  -- the weighted length of the generated table is the cost of the tree
  have hcost : weightedLength freqMap (generateHuffmanCodes root "" CodeTable.empty) =
      cost root := by
    have h1 := sum_leaves_eq_cost root 0
      (codeLength (generateHuffmanCodes root "" CodeTable.empty)) (by
        intro c p hp
        have := (hiff c p).2 hp
        simp [codeLength, this])
    have h2 := (hperm.map (fun pair : Char × Int => pair.2 *
      (codeLength (generateHuffmanCodes root "" CodeTable.empty) pair.1 : Int))).sum_eq
    rw [weightedLength, ← h2, h1]
    simp
  -- the lengths of the other code, as a multiset of (weight, length) pairs
  have hinit : ∀ n ∈ (freqMap.map (fun pair => Node.new pair.1 pair.2) : Multiset Node),
      Built n ∧ 0 ≤ n.freq ∧ n.freq = leafSum n := by
    intro n hn
    refine ⟨built_initial freqMap n hn, ?_⟩
    simp only [Multiset.mem_coe, List.mem_map] at hn
    obtain ⟨pair, hp, rfl⟩ := hn
    exact ⟨le_of_lt (hpos pair hp), by simp [Node.new, Node.freq, leafSum, leaves]⟩
  have hsum0 : ((freqMap.map (fun pair => Node.new pair.1 pair.2) : Multiset Node).map
      Node.freq).sum ≤ 2147483647 := by
    have : (freqMap.map (fun pair => Node.new pair.1 pair.2)).map Node.freq =
        freqMap.map Prod.snd := by
      rw [List.map_map]
      rfl
    rw [Multiset.map_coe, Multiset.sum_coe, this]
    exact hsum
  have hws : kraftWords (freqMap.map (fun pair => ((other pair.1).getD "").data)) ≤ 1 := by
    apply kraftWords_prefix_free
    · intro w hw b hb
      obtain ⟨pair, hp, rfl⟩ := List.mem_map.1 hw
      obtain ⟨cx, hcx, hbin⟩ := hdef pair.1 (List.mem_map_of_mem _ hp)
      rw [hcx] at hb
      exact hbin b hb
    · rw [List.pairwise_map]
      have hk : freqMap.Pairwise (fun a b => a.1 ≠ b.1) := by
        have := hkeys
        rw [List.Nodup, List.pairwise_map] at this
        exact this
      refine hk.imp_of_mem ?_
      intro a b ha hb hab
      obtain ⟨ca, hca, -⟩ := hdef a.1 (List.mem_map_of_mem _ ha)
      obtain ⟨cb, hcb, -⟩ := hdef b.1 (List.mem_map_of_mem _ hb)
      rw [hca, hcb]
      exact ⟨hpf a.1 (List.mem_map_of_mem _ ha) b.1 (List.mem_map_of_mem _ hb) hab ca cb hca hcb,
        hpf b.1 (List.mem_map_of_mem _ hb) a.1 (List.mem_map_of_mem _ ha) (Ne.symm hab) cb ca
          hcb hca⟩
  have hopt := merges_optimal hm hinit hsum0
    (freqMap.map (fun pair => (pair.2, codeLength other pair.1)) : Multiset (Int × Nat))
    (by simp [Node.new, Node.freq, Function.comp_def])
    (by
      have : kraftSum (freqMap.map (fun pair => (pair.2, codeLength other pair.1)) :
          Multiset (Int × Nat)) =
          kraftWords (freqMap.map (fun pair => ((other pair.1).getD "").data)) := by
        simp [kraftSum, kraftWords, codeLength_eq, Function.comp_def]
      rw [this]
      exact hws)
  have htot : totalCost (freqMap.map (fun pair => Node.new pair.1 pair.2) : Multiset Node)
      = 0 := by
    simp only [totalCost, Multiset.map_coe, Multiset.sum_coe, List.map_map]
    apply List.sum_eq_zero
    intro x hx
    obtain ⟨pair, -, rfl⟩ := List.mem_map.1 hx
    simp [Node.new, cost]
  have hwl : weightedSum (freqMap.map (fun pair => (pair.2, codeLength other pair.1)) :
      Multiset (Int × Nat)) = weightedLength freqMap other := by
    simp [weightedSum, weightedLength, Function.comp_def]
  rw [hcost]
  rw [htot, hwl] at hopt
  linarith

/-- C3, as the code has it: weighted optimality.  For every non-empty frequency
table with positive counts that sum to at most `2^31 - 1`, so that no addition
of two weights overflows the 32-bit `int`, the codes derived from
`buildHuffmanTree` are a binary code over the symbols of the table in which no
code is a prefix of another, and they minimise the sum over the symbols of
frequency × code length: no binary code over the same symbols in which no code
is a prefix of another has a smaller weighted total.  This holds for every
priority queue, whatever it does with nodes of equal weight. -/
theorem buildHuffmanTree_optimal (P : PriorityQueue) (freqMap : List (Char × Int))
    (hkeys : (freqMap.map Prod.fst).Nodup) (hne : freqMap ≠ [])
    (hpos : ∀ pair ∈ freqMap, 0 < pair.2)
    (hsum : (freqMap.map Prod.snd).sum ≤ 2147483647) :
    ∃ root, buildHuffmanTree P freqMap = .ok root ∧
      (∀ x ∈ freqMap.map Prod.fst, ∃ cx,
        generateHuffmanCodes root "" CodeTable.empty x = some cx ∧
        ∀ b ∈ cx.data, b = '0' ∨ b = '1') ∧
      (∀ x ∈ freqMap.map Prod.fst, ∀ y ∈ freqMap.map Prod.fst, x ≠ y →
        ∀ cx cy, generateHuffmanCodes root "" CodeTable.empty x = some cx →
          generateHuffmanCodes root "" CodeTable.empty y = some cy → ¬ cx.data <+: cy.data) ∧
      ∀ other : CodeTable,
        (∀ x ∈ freqMap.map Prod.fst, ∃ cx, other x = some cx ∧
          ∀ b ∈ cx.data, b = '0' ∨ b = '1') →
        (∀ x ∈ freqMap.map Prod.fst, ∀ y ∈ freqMap.map Prod.fst, x ≠ y →
          ∀ cx cy, other x = some cx → other y = some cy → ¬ cx.data <+: cy.data) →
        weightedLength freqMap (generateHuffmanCodes root "" CodeTable.empty) ≤
          weightedLength freqMap other := by
  obtain ⟨root, hroot, hm⟩ := buildHuffmanTree_ok P freqMap hne
  obtain ⟨root', hroot', -, hperm, hnd, hiff, hdef⟩ := buildHuffmanTree_codes P freqMap hkeys hne
  rw [hroot] at hroot'
  cases hroot'
  refine ⟨root, hroot, ?_, ?_, ?_⟩
  · intro x hx
    obtain ⟨cx, hcx⟩ := hdef x hx
    exact ⟨cx, hcx, leafPaths_binary root (x, cx) ((hiff x cx).1 hcx)⟩
  · intro x _ y _ hxy cx cy hcx hcy
    exact leafPaths_prefix_free root x y cx cy hxy ((hiff _ _).1 hcx) ((hiff _ _).1 hcy)
  · intro other hdef' hpf
    exact merges_weightedLength_le freqMap hkeys hpos hsum root hm hperm hiff other hdef' hpf

/-- The table `{a:4, b:3, c:2}` has distinct keys, is not empty and has positive
counts that sum to 9; the fixed-length code `a ↦ 00, b ↦ 01, c ↦ 10` is a binary
code over its symbols in which no code is a prefix of another. -/
theorem buildHuffmanTree_optimal_witness :
    ∃ root, buildHuffmanTree listQueue [('a', 4), ('b', 3), ('c', 2)] = .ok root ∧
      weightedLength [('a', 4), ('b', 3), ('c', 2)]
          (generateHuffmanCodes root "" CodeTable.empty) ≤
        weightedLength [('a', 4), ('b', 3), ('c', 2)]
          (((CodeTable.empty.assign 'a' "00").assign 'b' "01").assign 'c' "10") :=
  (buildHuffmanTree_optimal listQueue [('a', 4), ('b', 3), ('c', 2)]
    (by decide) (by decide) (by decide) (by decide)).imp
    (fun _ h => ⟨h.1,
      h.2.2.2 (((CodeTable.empty.assign 'a' "00").assign 'b' "01").assign 'c' "10")
      (by
        intro x hx
        simp only [List.map_cons, List.map_nil, List.mem_cons, List.mem_singleton,
          List.not_mem_nil, or_false] at hx
        rcases hx with rfl | rfl | rfl
        · exact ⟨"00", by decide, by decide⟩
        · exact ⟨"01", by decide, by decide⟩
        · exact ⟨"10", by decide, by decide⟩)
      (by
        intro x hx y hy hxy cx cy hcx hcy
        simp only [List.map_cons, List.map_nil, List.mem_cons, List.mem_singleton,
          List.not_mem_nil, or_false] at hx hy
        rcases hx with rfl | rfl | rfl <;> rcases hy with rfl | rfl | rfl <;>
          first
          | exact absurd rfl hxy
          | (simp only [CodeTable.assign, CodeTable.empty] at hcx hcy
             simp only [Char.reduceEq, if_true, if_false, Option.some.injEq] at hcx hcy
             subst hcx
             subst hcy
             decide))⟩)

/-- C3 fails as stated: on the table `{a:2^30, b:2^30+1, c:2^30+2, d:2^30+3}`,
whose counts are positive, the additions overflow, the codes generated have
lengths 3, 3, 2, 1 and weighted total 9663676426, and the fixed-length code
`a ↦ 00, b ↦ 01, c ↦ 10, d ↦ 11`, a binary code in which no code is a prefix of
another, has the smaller weighted total 8589934604. -/
theorem optimal_overflow :
    ¬ ∃ root, buildHuffmanTree listQueue
        [('a', 1073741824), ('b', 1073741825), ('c', 1073741826), ('d', 1073741827)] =
          .ok root ∧
      ∀ other : CodeTable,
        (∀ x ∈ [('a', (1073741824 : Int)), ('b', 1073741825), ('c', 1073741826),
            ('d', 1073741827)].map Prod.fst, ∃ cx, other x = some cx ∧
          ∀ b ∈ cx.data, b = '0' ∨ b = '1') →
        (∀ x ∈ [('a', (1073741824 : Int)), ('b', 1073741825), ('c', 1073741826),
            ('d', 1073741827)].map Prod.fst,
          ∀ y ∈ [('a', (1073741824 : Int)), ('b', 1073741825), ('c', 1073741826),
            ('d', 1073741827)].map Prod.fst, x ≠ y →
          ∀ cx cy, other x = some cx → other y = some cy → ¬ cx.data <+: cy.data) →
        weightedLength
            [('a', 1073741824), ('b', 1073741825), ('c', 1073741826), ('d', 1073741827)]
            (generateHuffmanCodes root "" CodeTable.empty) ≤
          weightedLength
            [('a', 1073741824), ('b', 1073741825), ('c', 1073741826), ('d', 1073741827)]
            other := by
  rintro ⟨root, hroot, h⟩
  have hb : buildHuffmanTree listQueue
      [('a', 1073741824), ('b', 1073741825), ('c', 1073741826), ('d', 1073741827)] =
      .ok (.mk ',' 6
        (.mk ',' (-1073741821)
          (.mk ',' (-2147483647) (.mk 'a' 1073741824 .null .null)
            (.mk 'b' 1073741825 .null .null))
          (.mk 'c' 1073741826 .null .null))
        (.mk 'd' 1073741827 .null .null)) := by
    decide
  rw [hb] at hroot
  cases hroot
  have hle := h ((((CodeTable.empty.assign 'a' "00").assign 'b' "01").assign 'c' "10").assign
      'd' "11")
    (by
      intro x hx
      simp only [List.map_cons, List.map_nil, List.mem_cons, List.mem_singleton,
        List.not_mem_nil, or_false] at hx
      rcases hx with rfl | rfl | rfl | rfl
      · exact ⟨"00", by decide, by decide⟩
      · exact ⟨"01", by decide, by decide⟩
      · exact ⟨"10", by decide, by decide⟩
      · exact ⟨"11", by decide, by decide⟩)
    (by
      intro x hx y hy hxy cx cy hcx hcy
      simp only [List.map_cons, List.map_nil, List.mem_cons, List.mem_singleton,
        List.not_mem_nil, or_false] at hx hy
      rcases hx with rfl | rfl | rfl | rfl <;> rcases hy with rfl | rfl | rfl | rfl <;>
        first
        | exact absurd rfl hxy
        | (simp only [CodeTable.assign, CodeTable.empty] at hcx hcy
           simp only [Char.reduceEq, if_true, if_false, Option.some.injEq] at hcx hcy
           subst hcx
           subst hcy
           decide))
  revert hle
  decide

/-- When the two least weights of the queue are least strictly, the iteration of
the merge loop has one possible outcome. -/
theorem mergeStep_unique (l0 r0 : Node) (rest0 : Multiset Node)
    (hl : ∀ m ∈ r0 ::ₘ rest0, l0.freq < m.freq) (hr : ∀ m ∈ rest0, r0.freq < m.freq)
    {M' : Multiset Node} (h : MergeStep (l0 ::ₘ r0 ::ₘ rest0) M') :
    M' = Node.mk ',' (wrapInt32 (l0.freq + r0.freq)) l0 r0 ::ₘ rest0 := by
  obtain ⟨l, r, rest, hM, hlmin, hrmin, rfl⟩ := h
  have hlmem : l ∈ l0 ::ₘ r0 ::ₘ rest0 := by rw [hM]; simp
  have hl0 : l = l0 := by
    rcases Multiset.mem_cons.1 hlmem with h | h
    · exact h
    · have h1 := hl l h
      have h2 := hlmin l0 (by simp)
      omega
  subst hl0
  have hM2 : r0 ::ₘ rest0 = r ::ₘ rest := (Multiset.cons_inj_right l).1 hM
  have hrmem : r ∈ r0 ::ₘ rest0 := by rw [hM2]; simp
  have hr0 : r = r0 := by
    rcases Multiset.mem_cons.1 hrmem with h | h
    · exact h
    · have h1 := hr r h
      have h2 := hrmin r0 (by rw [← hM2]; simp)
      omega
  subst hr0
  rw [(Multiset.cons_inj_right r).1 hM2]

theorem merges_head {M N : Multiset Node} (h : Merges M N)
    (hcard : Multiset.card N < Multiset.card M) : ∃ c, MergeStep M c ∧ Merges c N := by
  rcases Relation.ReflTransGen.cases_head h with h | h
  · subst h
    omega
  · exact h

/-- A queue whose two least weights are least strictly goes on as the queue with
these two nodes merged. -/
theorem merges_unique (l0 r0 : Node) (rest0 M N : Multiset Node)
    (hM : M = l0 ::ₘ r0 ::ₘ rest0)
    (hl : ∀ m ∈ r0 ::ₘ rest0, l0.freq < m.freq) (hr : ∀ m ∈ rest0, r0.freq < m.freq)
    (hN : Multiset.card N = 1) (h : Merges M N) :
    Merges (Node.mk ',' (wrapInt32 (l0.freq + r0.freq)) l0 r0 ::ₘ rest0) N := by
  subst hM
  obtain ⟨c, hc, hcN⟩ := merges_head h (by simp [hN])
  rw [mergeStep_unique l0 r0 rest0 hl hr hc] at hcN
  exact hcN

theorem textbook_merges (root : Node)
    (h : Merges (textbookTable.map (fun pair => Node.new pair.1 pair.2) : Multiset Node) {root}) :
    root = textbookTree := by
  have h1 := merges_unique (Node.new 'a' 5) (Node.new 'b' 9)
    ([Node.new 'c' 12, Node.new 'd' 13, Node.new 'e' 16, Node.new 'f' 45] : List Node) _ _
    rfl (by decide) (by decide) (by simp) h
  have h2 := merges_unique (Node.new 'c' 12) (Node.new 'd' 13)
    ([.mk ',' 14 (Node.new 'a' 5) (Node.new 'b' 9), Node.new 'e' 16, Node.new 'f' 45] :
      List Node) _ _
    (by decide) (by decide) (by decide) (by simp) h1
  have h3 := merges_unique (.mk ',' 14 (Node.new 'a' 5) (Node.new 'b' 9)) (Node.new 'e' 16)
    ([.mk ',' 25 (Node.new 'c' 12) (Node.new 'd' 13), Node.new 'f' 45] : List Node) _ _
    (by decide) (by decide) (by decide) (by simp) h2
  have h4 := merges_unique (.mk ',' 25 (Node.new 'c' 12) (Node.new 'd' 13))
    (.mk ',' 30 (.mk ',' 14 (Node.new 'a' 5) (Node.new 'b' 9)) (Node.new 'e' 16))
    ([Node.new 'f' 45] : List Node) _ _
    (by decide) (by decide) (by decide) (by simp) h3
  have h5 := merges_unique (Node.new 'f' 45)
    (.mk ',' 55 (.mk ',' 25 (Node.new 'c' 12) (Node.new 'd' 13))
      (.mk ',' 30 (.mk ',' 14 (Node.new 'a' 5) (Node.new 'b' 9)) (Node.new 'e' 16)))
    (0 : Multiset Node) _ _
    (by decide) (by decide) (by decide) (by simp) h4
  have h6 := merges_of_card_le_one h5 (by simp)
  have h7 := Multiset.singleton_inj.1 h6
  rw [h7]
  decide

theorem weightedLength_perm {freqMap table : List (Char × Int)} (h : freqMap.Perm table)
    (codes : CodeTable) : weightedLength freqMap codes = weightedLength table codes :=
  (h.map _).sum_eq

theorem buildHuffmanTree_perm_merges (P : PriorityQueue) {freqMap table : List (Char × Int)}
    (h : freqMap.Perm table) (hne : table ≠ []) :
    ∃ root, buildHuffmanTree P freqMap = .ok root ∧
      Merges (table.map (fun pair => Node.new pair.1 pair.2) : Multiset Node) {root} := by
  have hne' : freqMap ≠ [] := by
    rintro rfl
    exact hne (List.Perm.eq_nil h.symm)
  obtain ⟨root, hroot, hm⟩ := buildHuffmanTree_ok P freqMap hne'
  refine ⟨root, hroot, ?_⟩
  have : (freqMap.map (fun pair => Node.new pair.1 pair.2) : Multiset Node) =
      (table.map (fun pair => Node.new pair.1 pair.2) : Multiset Node) :=
    Quotient.sound (h.map _)
  rw [← this]
  exact hm

/-- C11: for the frequency table `{a:5, b:9, c:12, d:13, e:16, f:45}`, met in any
order and with any priority queue, the codes generated from `buildHuffmanTree`
have total weighted length (the sum of frequency × code length) 224, `f` gets a
code of length 1, and `a` and `b` get codes of length 4. -/
theorem textbook_code_lengths (P : PriorityQueue) (freqMap : List (Char × Int))
    (hperm : freqMap.Perm [('a', 5), ('b', 9), ('c', 12), ('d', 13), ('e', 16), ('f', 45)]) :
    ∃ root, buildHuffmanTree P freqMap = .ok root ∧
      weightedLength freqMap (generateHuffmanCodes root "" CodeTable.empty) = 224 ∧
      codeLength (generateHuffmanCodes root "" CodeTable.empty) 'f' = 1 ∧
      codeLength (generateHuffmanCodes root "" CodeTable.empty) 'a' = 4 ∧
      codeLength (generateHuffmanCodes root "" CodeTable.empty) 'b' = 4 := by
  obtain ⟨root, hroot, hm⟩ := buildHuffmanTree_perm_merges P hperm (by decide)
  have hr := textbook_merges root hm
  subst hr
  refine ⟨_, hroot, ?_, by decide, by decide, by decide⟩
  rw [weightedLength_perm hperm]
  decide

/-- The table in the order `f, e, d, c, b, a` is a permutation of the table. -/
theorem textbook_code_lengths_witness :
    ∃ root, buildHuffmanTree listQueue
        [('f', 45), ('e', 16), ('d', 13), ('c', 12), ('b', 9), ('a', 5)] = .ok root ∧
      weightedLength [('f', 45), ('e', 16), ('d', 13), ('c', 12), ('b', 9), ('a', 5)]
        (generateHuffmanCodes root "" CodeTable.empty) = 224 ∧
      codeLength (generateHuffmanCodes root "" CodeTable.empty) 'f' = 1 ∧
      codeLength (generateHuffmanCodes root "" CodeTable.empty) 'a' = 4 ∧
      codeLength (generateHuffmanCodes root "" CodeTable.empty) 'b' = 4 :=
  textbook_code_lengths listQueue [('f', 45), ('e', 16), ('d', 13), ('c', 12), ('b', 9), ('a', 5)]
    (by decide)

theorem aaaabbbcc_merges (root : Node)
    (h : Merges ((countFrequencies "aaaabbbcc").map (fun pair => Node.new pair.1 pair.2) :
      Multiset Node) {root}) :
    root = .mk ',' 9 (.mk 'a' 4 .null .null)
      (.mk ',' 5 (.mk 'c' 2 .null .null) (.mk 'b' 3 .null .null)) := by
  have h1 := merges_unique (Node.new 'c' 2) (Node.new 'b' 3) ([Node.new 'a' 4] : List Node) _ _
    (by decide) (by decide) (by decide) (by simp) h
  have h2 := merges_unique (Node.new 'a' 4) (.mk ',' 5 (Node.new 'c' 2) (Node.new 'b' 3))
    (0 : Multiset Node) _ _ (by decide) (by decide) (by decide) (by simp) h1
  have h3 := Multiset.singleton_inj.1 (merges_of_card_le_one h2 (by simp))
  rw [h3]
  decide

/-- C12: for the input `aaaabbbcc`, the frequencies counted as in `main` are
`a:4, b:3, c:2`, and building the tree, generating the codes and encoding the
input yields a bit string of length 14, the weighted total of the table: `a`
gets a code of 1 bit, `b` and `c` get codes of 2 bits; and 14 is the optimum
for these weights, no binary code in which no code is a prefix of another has a
smaller weighted total.  This holds whatever the order in which the table is
met and whatever the priority queue. -/
theorem aaaabbbcc_encoded_length (P : PriorityQueue) (freqMap : List (Char × Int))
    (hperm : freqMap.Perm (countFrequencies "aaaabbbcc")) :
    countFrequencies "aaaabbbcc" = [('a', 4), ('b', 3), ('c', 2)] ∧
    ∃ root, buildHuffmanTree P freqMap = .ok root ∧
      (encodeString "aaaabbbcc" (generateHuffmanCodes root "" CodeTable.empty)).length = 14 ∧
      weightedLength freqMap (generateHuffmanCodes root "" CodeTable.empty) = 14 ∧
      codeLength (generateHuffmanCodes root "" CodeTable.empty) 'a' = 1 ∧
      codeLength (generateHuffmanCodes root "" CodeTable.empty) 'b' = 2 ∧
      codeLength (generateHuffmanCodes root "" CodeTable.empty) 'c' = 2 ∧
      ∀ other : CodeTable,
        (∀ x ∈ freqMap.map Prod.fst, ∃ cx, other x = some cx ∧
          ∀ b ∈ cx.data, b = '0' ∨ b = '1') →
        (∀ x ∈ freqMap.map Prod.fst, ∀ y ∈ freqMap.map Prod.fst, x ≠ y →
          ∀ cx cy, other x = some cx → other y = some cy → ¬ cx.data <+: cy.data) →
        14 ≤ weightedLength freqMap other := by
  refine ⟨by decide, ?_⟩
  have hcount : countFrequencies "aaaabbbcc" = [('a', 4), ('b', 3), ('c', 2)] := by decide
  have hkeys : (freqMap.map Prod.fst).Nodup := by
    rw [(hperm.map Prod.fst).nodup_iff, hcount]
    decide
  have hpos : ∀ pair ∈ freqMap, 0 < pair.2 := by
    have hall : ∀ pair ∈ [('a', (4 : Int)), ('b', 3), ('c', 2)], 0 < pair.2 := by decide
    intro pair hp
    have := hperm.mem_iff.1 hp
    rw [hcount] at this
    exact hall pair this
  have hne : freqMap ≠ [] := by
    rintro rfl
    rw [hcount] at hperm
    exact absurd hperm.length_eq (by decide)
  obtain ⟨root, hroot, hm⟩ := buildHuffmanTree_perm_merges P hperm (by decide)
  obtain ⟨root1, hroot1, hm1⟩ := buildHuffmanTree_ok P freqMap hne
  obtain ⟨root2, hroot2, -, hperm2, -, hiff2, -⟩ := buildHuffmanTree_codes P freqMap hkeys hne
  rw [hroot] at hroot1 hroot2
  cases hroot1
  cases hroot2
  have hr := aaaabbbcc_merges root hm
  have hw : weightedLength freqMap (generateHuffmanCodes root "" CodeTable.empty) = 14 := by
    rw [weightedLength_perm hperm, hr]
    decide
  refine ⟨root, hroot, ?_, hw, ?_, ?_, ?_, ?_⟩
  · rw [hr]
    decide
  · rw [hr]
    decide
  · rw [hr]
    decide
  · rw [hr]
    decide
  · intro other hdef hpf
    rw [← hw]
    have hsum : (freqMap.map Prod.snd).sum ≤ 2147483647 := by
      rw [(hperm.map Prod.snd).sum_eq, hcount]
      decide
    exact merges_weightedLength_le freqMap hkeys hpos hsum root hm1 hperm2 hiff2 other hdef hpf

/-- The table in the order `c, b, a` is a permutation of the table counted from
`aaaabbbcc`. -/
theorem aaaabbbcc_encoded_length_witness :
    countFrequencies "aaaabbbcc" = [('a', 4), ('b', 3), ('c', 2)] ∧
    ∃ root, buildHuffmanTree listQueue [('c', 2), ('b', 3), ('a', 4)] = .ok root ∧
      (encodeString "aaaabbbcc" (generateHuffmanCodes root "" CodeTable.empty)).length = 14 ∧
      weightedLength [('c', 2), ('b', 3), ('a', 4)]
        (generateHuffmanCodes root "" CodeTable.empty) = 14 ∧
      codeLength (generateHuffmanCodes root "" CodeTable.empty) 'a' = 1 ∧
      codeLength (generateHuffmanCodes root "" CodeTable.empty) 'b' = 2 ∧
      codeLength (generateHuffmanCodes root "" CodeTable.empty) 'c' = 2 ∧
      ∀ other : CodeTable,
        (∀ x ∈ [('c', (2 : Int)), ('b', 3), ('a', 4)].map Prod.fst, ∃ cx, other x = some cx ∧
          ∀ b ∈ cx.data, b = '0' ∨ b = '1') →
        (∀ x ∈ [('c', (2 : Int)), ('b', 3), ('a', 4)].map Prod.fst,
          ∀ y ∈ [('c', (2 : Int)), ('b', 3), ('a', 4)].map Prod.fst, x ≠ y →
          ∀ cx cy, other x = some cx → other y = some cy → ¬ cx.data <+: cy.data) →
        14 ≤ weightedLength [('c', 2), ('b', 3), ('a', 4)] other :=
  aaaabbbcc_encoded_length listQueue [('c', 2), ('b', 3), ('a', 4)] (by decide)

theorem assignAll_congr (code : String) (xs : List (Char × String)) (codes codes' : CodeTable)
    (h : ∀ c, c ∉ xs.map Prod.fst → codes c = codes' c) :
    assignAll code xs codes = assignAll code xs codes' := by
  induction xs generalizing codes codes' with
  | nil =>
    funext c
    exact h c (by simp)
  | cons x xs ih =>
    have hcons : ∀ t : CodeTable,
        assignAll code (x :: xs) t = assignAll code xs (t.assign x.1 (code ++ x.2)) :=
      fun _ => rfl
    rw [hcons, hcons]
    apply ih
    intro c hc
    by_cases hcx : c = x.1
    · simp [CodeTable.assign, hcx]
    · simp only [CodeTable.assign, hcx, if_false]
      apply h
      simp only [List.map_cons, List.mem_cons, not_or]
      exact ⟨hcx, hc⟩

/-- C14: idempotence of `generateHuffmanCodes`.  For every tree and every
starting table, running `generateHuffmanCodes(root, "", codes)` a second time on
the table produced by a first run leaves the table unchanged; and two runs from
the same starting table produce equal tables (the result is a function of the
tree, the starting path and the starting table). -/
theorem generateHuffmanCodes_idempotent (root : Node) (codes : CodeTable) :
    generateHuffmanCodes root "" (generateHuffmanCodes root "" codes) =
      generateHuffmanCodes root "" codes ∧
    ∀ codes1 codes2 : CodeTable, codes1 = codes2 →
      generateHuffmanCodes root "" codes1 = generateHuffmanCodes root "" codes2 := by
  refine ⟨?_, fun _ _ h => by rw [h]⟩
  rw [generateHuffmanCodes_eq, generateHuffmanCodes_eq]
  apply assignAll_congr
  intro c hc
  exact assignAll_of_not_mem _ _ _ _ hc

theorem built_cases {data : Char} {freq : Int} {left right : Node}
    (h : Built (.mk data freq left right)) :
    (left = .null ∧ right = .null) ∨
      (freq = wrapInt32 (left.freq + right.freq) ∧ Built left ∧ Built right ∧
        left.freq ≤ right.freq) := by
  generalize hx : Node.mk data freq left right = x at h
  cases h with
  | leaf d f =>
    simp only [Node.new, Node.mk.injEq] at hx
    exact Or.inl ⟨hx.2.2.1, hx.2.2.2⟩
  | parent l r hl hr hle =>
    simp only [Node.mk.injEq] at hx
    obtain ⟨-, hf, rfl, rfl⟩ := hx
    exact Or.inr ⟨hf, hl, hr, hle⟩

/-- C15: for every non-empty frequency table, the tree returned by
`buildHuffmanTree` is a strict binary tree: every node of it has either no child
or two children, never exactly one, so that the leaf test of
`generateHuffmanCodes` (both children null) sorts every node into leaf or
internal node with two children. -/
theorem buildHuffmanTree_strict (P : PriorityQueue) (freqMap : List (Char × Int))
    (hne : freqMap ≠ []) :
    ∃ root, buildHuffmanTree P freqMap = .ok root ∧ root ≠ .null ∧
      ∀ data freq left right, Node.mk data freq left right ∈ subtrees root →
        (left = .null ∧ right = .null) ∨ (left ≠ .null ∧ right ≠ .null) := by
  obtain ⟨root, hroot, hb, -⟩ := buildHuffmanTree_built P freqMap hne
  refine ⟨root, hroot, built_ne_null hb, ?_⟩
  intro data freq left right hmem
  rcases built_cases (built_subtrees hb _ hmem) with h | ⟨-, hl, hr, -⟩
  · exact Or.inl h
  · exact Or.inr ⟨built_ne_null hl, built_ne_null hr⟩

/-- The table `{a:4, b:3, c:2}` is not empty. -/
theorem buildHuffmanTree_strict_witness :
    ∃ root, buildHuffmanTree listQueue [('a', 4), ('b', 3), ('c', 2)] = .ok root ∧
      root ≠ .null ∧
      ∀ data freq left right, Node.mk data freq left right ∈ subtrees root →
        (left = .null ∧ right = .null) ∨ (left ≠ .null ∧ right ≠ .null) :=
  buildHuffmanTree_strict listQueue [('a', 4), ('b', 3), ('c', 2)] (by decide)

/-- C16: each merge of `buildHuffmanTree` takes the two nodes of least weight of
the queue, the least as left child and the second least as right child.  On
every queue on which the loop body runs (more than one node), `left` is a node
of least weight, `right` a node of least weight among the others, no node that
stays in the queue is lighter than `right`, and the loop goes on with the queue
in which the parent of the two has been pushed; and in the returned tree every
internal node has `left.freq ≤ right.freq`. -/
theorem buildHuffmanTree_merge_order (P : PriorityQueue) (freqMap : List (Char × Int))
    (hne : freqMap ≠ []) :
    (∀ pq : P.Q, P.size pq > 1 → ∃ left right,
      P.top pq = some left ∧ P.top (P.pop pq) = some right ∧
      (∀ m ∈ P.contents pq, left.freq ≤ m.freq) ∧ left.freq ≤ right.freq ∧
      (∀ m ∈ P.contents (P.pop (P.pop pq)), right.freq ≤ m.freq) ∧
      ∀ fuel, mergeLoop P (fuel + 1) pq = mergeLoop P fuel
        (P.push (P.pop (P.pop pq)) (.mk ',' (wrapInt32 (left.freq + right.freq)) left right))) ∧
    ∃ root, buildHuffmanTree P freqMap = .ok root ∧
      ∀ data freq left right, Node.mk data freq left right ∈ subtrees root →
        ¬ (left = .null ∧ right = .null) → left.freq ≤ right.freq := by
  constructor
  · intro pq hsize
    obtain ⟨left, right, hl, hr, l, r, rest, hM, hlmin, hrmin, hM'⟩ := mergeStep_of_size P pq hsize
    have hlm := P.top_mem pq left hl
    have hrm := P.top_mem _ right hr
    have hc1 := P.contents_pop pq left hl
    have hc2 := P.contents_pop _ right hr
    have hmin1 : ∀ m ∈ P.contents pq, left.freq ≤ m.freq :=
      fun m hm => Compare_eq_false (P.top_max pq left hl m hm)
    have hmin2 : ∀ m ∈ P.contents (P.pop pq), right.freq ≤ m.freq :=
      fun m hm => Compare_eq_false (P.top_max _ right hr m hm)
    refine ⟨left, right, hl, hr, hmin1, ?_, ?_, ?_⟩
    · apply hmin1
      rw [hc1] at hrm
      exact Multiset.mem_of_mem_erase hrm
    · intro m hm
      apply hmin2
      rw [hc2] at hm
      exact Multiset.mem_of_mem_erase hm
    · intro fuel
      conv_lhs => unfold mergeLoop
      simp [hsize, hl, hr]
  · obtain ⟨root, hroot, hb, -⟩ := buildHuffmanTree_built P freqMap hne
    refine ⟨root, hroot, ?_⟩
    intro data freq left right hmem hint
    rcases built_cases (built_subtrees hb _ hmem) with h | ⟨-, -, -, hle⟩
    · exact absurd h hint
    · exact hle

/-- The table `{a:4, b:3, c:2}` is not empty. -/
theorem buildHuffmanTree_merge_order_witness :
    (∀ pq : listQueue.Q, listQueue.size pq > 1 → ∃ left right,
      listQueue.top pq = some left ∧ listQueue.top (listQueue.pop pq) = some right ∧
      (∀ m ∈ listQueue.contents pq, left.freq ≤ m.freq) ∧ left.freq ≤ right.freq ∧
      (∀ m ∈ listQueue.contents (listQueue.pop (listQueue.pop pq)), right.freq ≤ m.freq) ∧
      ∀ fuel, mergeLoop listQueue (fuel + 1) pq = mergeLoop listQueue fuel
        (listQueue.push (listQueue.pop (listQueue.pop pq))
          (.mk ',' (wrapInt32 (left.freq + right.freq)) left right))) ∧
    ∃ root, buildHuffmanTree listQueue [('a', 4), ('b', 3), ('c', 2)] = .ok root ∧
      ∀ data freq left right, Node.mk data freq left right ∈ subtrees root →
        ¬ (left = .null ∧ right = .null) → left.freq ≤ right.freq :=
  buildHuffmanTree_merge_order listQueue [('a', 4), ('b', 3), ('c', 2)] (by decide)

theorem increment_keys (freqMap : List (Char × Int)) (c : Char) :
    (increment freqMap c).map Prod.fst = freqMap.map Prod.fst := by
  induction freqMap with
  | nil => rfl
  | cons pair rest ih =>
    simp only [increment]
    by_cases h : pair.1 = c
    · simp [h]
    · simp [h, ih]

theorem hasKey_iff (freqMap : List (Char × Int)) (c : Char) :
    hasKey freqMap c = true ↔ c ∈ freqMap.map Prod.fst := by
  simp only [hasKey, List.any_eq_true, beq_iff_eq, List.mem_map]

theorem increment_sum (g : Char → Int) (freqMap : List (Char × Int)) (c : Char)
    (h : c ∈ freqMap.map Prod.fst) :
    ((increment freqMap c).map (fun pair => pair.2 * g pair.1)).sum =
      (freqMap.map (fun pair => pair.2 * g pair.1)).sum + g c := by
  induction freqMap with
  | nil => simp at h
  | cons pair rest ih =>
    simp only [increment]
    by_cases hp : pair.1 = c
    · simp only [hp, if_true, List.map_cons, List.sum_cons]
      ring
    · have hc : c ∈ rest.map Prod.fst := by
        simp only [List.map_cons, List.mem_cons] at h
        rcases h with h | h
        · exact absurd h.symm hp
        · exact h
      simp only [hp, if_false, List.map_cons, List.sum_cons, ih hc]
      ring

/-- The counting loop started from a table `acc`: the keys stay distinct, the
keys are those of `acc` and the characters read, and each character read adds 1
to the count of its key. -/
theorem count_foldl (g : Char → Int) (l : List Char) (acc : List (Char × Int))
    (hacc : (acc.map Prod.fst).Nodup) :
    ((l.foldl (fun freqMap c =>
        if hasKey freqMap c then increment freqMap c else freqMap ++ [(c, 1)]) acc).map
      Prod.fst).Nodup ∧
    (∀ c, c ∈ (l.foldl (fun freqMap c =>
        if hasKey freqMap c then increment freqMap c else freqMap ++ [(c, 1)]) acc).map Prod.fst ↔
      c ∈ acc.map Prod.fst ∨ c ∈ l) ∧
    ((l.foldl (fun freqMap c =>
        if hasKey freqMap c then increment freqMap c else freqMap ++ [(c, 1)]) acc).map
      (fun pair => pair.2 * g pair.1)).sum =
      (acc.map (fun pair => pair.2 * g pair.1)).sum + (l.map g).sum := by
  induction l generalizing acc with
  | nil => simp [hacc]
  | cons x l ih =>
    rw [List.foldl_cons]
    by_cases hx : hasKey acc x = true
    · have hmem := (hasKey_iff acc x).1 hx
      simp only [hx, if_true]
      obtain ⟨h1, h2, h3⟩ := ih (increment acc x) (by rw [increment_keys]; exact hacc)
      refine ⟨h1, ?_, ?_⟩
      · intro c
        rw [h2 c, increment_keys]
        simp only [List.mem_cons]
        constructor
        · rintro (h | h)
          · exact Or.inl h
          · exact Or.inr (Or.inr h)
        · rintro (h | h | h)
          · exact Or.inl h
          · subst h
            exact Or.inl hmem
          · exact Or.inr h
      · rw [h3, increment_sum g acc x hmem, List.map_cons, List.sum_cons]
        ring
    · have hnot : x ∉ acc.map Prod.fst := fun h => hx ((hasKey_iff acc x).2 h)
      simp only [hx, Bool.false_eq_true, if_false]
      obtain ⟨h1, h2, h3⟩ := ih (acc ++ [(x, 1)]) (by
        rw [List.map_append, List.nodup_append]
        refine ⟨hacc, by simp, ?_⟩
        intro a ha hb
        simp only [List.map_cons, List.map_nil, List.mem_singleton] at hb
        subst hb
        exact hnot ha)
      refine ⟨h1, ?_, ?_⟩
      · intro c
        rw [h2 c]
        simp only [List.map_append, List.map_cons, List.map_nil, List.mem_append,
          List.mem_singleton, List.mem_cons, List.not_mem_nil, or_false]
        constructor
        · rintro ((h | h) | h)
          · exact Or.inl h
          · exact Or.inr (Or.inl h)
          · exact Or.inr (Or.inr h)
        · rintro (h | h | h)
          · exact Or.inl (Or.inl h)
          · exact Or.inl (Or.inr h)
          · exact Or.inr h
      · rw [h3]
        simp only [List.map_append, List.map_cons, List.map_nil, List.sum_append, List.sum_cons,
          List.sum_nil]
        ring

theorem countFrequencies_sum (g : Char → Int) (s : String) :
    ((countFrequencies s).map (fun pair => pair.2 * g pair.1)).sum = (s.data.map g).sum := by
  obtain ⟨-, -, h3⟩ := count_foldl g s.data [] (by simp)
  simpa [countFrequencies] using h3

/-- C18, as the code has it: for every non-empty frequency table whose counts
are not negative and sum to at most `2^31 - 1`, so that no addition of two
weights overflows the 32-bit `int`, the `freq` of the root returned by
`buildHuffmanTree` is the sum of all the counts of the table; for such a table
counted from a string as in `main`, it is the length of the string. -/
theorem buildHuffmanTree_root_freq (P : PriorityQueue) (freqMap : List (Char × Int))
    (hne : freqMap ≠ []) (hnn : ∀ pair ∈ freqMap, 0 ≤ pair.2)
    (hsum : (freqMap.map Prod.snd).sum ≤ 2147483647) :
    ∃ root, buildHuffmanTree P freqMap = .ok root ∧
      root.freq = (freqMap.map Prod.snd).sum ∧
      ∀ s : String, freqMap.Perm (countFrequencies s) → root.freq = s.length := by
  obtain ⟨root, hroot, hb, hperm⟩ := buildHuffmanTree_built P freqMap hne
  have hleaf : leafSum root = (freqMap.map Prod.snd).sum := (hperm.map Prod.snd).sum_eq
  have hfreq : root.freq = (freqMap.map Prod.snd).sum := by
    rw [built_freq hb (fun p hp => hnn p (hperm.mem_iff.1 hp)) (by rw [hleaf]; exact hsum)]
    exact hleaf
  refine ⟨root, hroot, hfreq, ?_⟩
  intro s hs
  rw [hfreq, (hs.map Prod.snd).sum_eq]
  have h := countFrequencies_sum (fun _ => 1) s
  simp only [mul_one] at h
  rw [h]
  have hl : s.length = s.data.length := rfl
  rw [hl]
  simp

/-- The table `{a:4, b:3, c:2}` is not empty, and its counts are not negative
and sum to 9. -/
theorem buildHuffmanTree_root_freq_witness :
    ∃ root, buildHuffmanTree listQueue [('a', 4), ('b', 3), ('c', 2)] = .ok root ∧
      root.freq = ([('a', (4 : Int)), ('b', 3), ('c', 2)].map Prod.snd).sum ∧
      ∀ s : String, List.Perm [('a', (4 : Int)), ('b', 3), ('c', 2)] (countFrequencies s) →
        root.freq = s.length :=
  buildHuffmanTree_root_freq listQueue [('a', 4), ('b', 3), ('c', 2)] (by decide) (by decide)
    (by decide)

/-- C18 fails as stated: on the table `{a:2147483647, b:1}` the addition
`1 + 2147483647` overflows, and the `freq` of the root is `-2147483648`, not the
sum 2147483648 of the counts. -/
theorem root_freq_overflow :
    ¬ ∃ root, buildHuffmanTree listQueue [('a', 2147483647), ('b', 1)] = .ok root ∧
      root.freq = ([('a', (2147483647 : Int)), ('b', 1)].map Prod.snd).sum := by
  rintro ⟨root, hroot, h⟩
  have hb : buildHuffmanTree listQueue [('a', 2147483647), ('b', 1)] =
      .ok (.mk ',' (-2147483648) (.mk 'b' 1 .null .null) (.mk 'a' 2147483647 .null .null)) := by
    decide
  rw [hb] at hroot
  cases hroot
  revert h
  decide

theorem mergeLoop_fuel (P : PriorityQueue) (fuel : Nat) (q : P.Q)
    (h : fuel + 1 < Multiset.card (P.contents q)) : mergeLoop P fuel q = .error .fuel := by
  induction fuel generalizing q with
  | zero =>
    have h1 : P.size q > 1 := by rw [P.size_eq]; omega
    unfold mergeLoop
    simp [h1]
  | succ fuel ih =>
    have h1 : P.size q > 1 := by rw [P.size_eq]; omega
    obtain ⟨left, right, hl, hr, hstep⟩ := mergeStep_of_size P q h1
    have hcard := mergeStep_card hstep
    have := ih (P.push (P.pop (P.pop q)) (Node.mk ',' (wrapInt32 (left.freq + right.freq)) left right))
      (by omega)
    rw [← this]
    conv_lhs => unfold mergeLoop
    simp [h1, hl, hr]

theorem built_internalCount {t : Node} (h : Built t) :
    internalCount t + 1 = (leaves t).length := by
  induction h with
  | leaf data freq => simp [Node.new, internalCount, leaves]
  | parent left right hl _ _ ihl ihr =>
    have hne := built_ne_null hl
    rw [leaves_parent _ _ _ hne]
    simp only [internalCount, hne, false_and, if_false, List.length_append]
    omega

/-- C19: for every frequency table with `n ≥ 1` symbols, the merge loop of
`buildHuffmanTree` ends after exactly `n − 1` iterations: a bound of `n − 1`
iterations or more lets it end, with exactly one node in the queue, and a
smaller bound cuts it off.  Each iteration makes the queue one node smaller, and
the tree returned has exactly `n − 1` internal nodes. -/
theorem mergeLoop_iterations (P : PriorityQueue) (freqMap : List (Char × Int))
    (hne : freqMap ≠ []) :
    (∀ fuel, freqMap.length - 1 ≤ fuel →
      ∃ pq, mergeLoop P fuel (pushLeaves P freqMap) = .ok pq ∧ P.size pq = 1) ∧
    (∀ fuel, fuel < freqMap.length - 1 →
      mergeLoop P fuel (pushLeaves P freqMap) = .error .fuel) ∧
    (∀ pq : P.Q, P.size pq > 1 → ∃ left right,
      P.top pq = some left ∧ P.top (P.pop pq) = some right ∧
      P.size (P.push (P.pop (P.pop pq)) (.mk ',' (wrapInt32 (left.freq + right.freq)) left right)) + 1 =
        P.size pq) ∧
    ∃ root, buildHuffmanTree P freqMap = .ok root ∧
      internalCount root = freqMap.length - 1 := by
  have hcard : Multiset.card (P.contents (pushLeaves P freqMap)) = freqMap.length := by
    rw [contents_pushLeaves]
    simp
  have hlen : 0 < freqMap.length := List.length_pos.2 hne
  refine ⟨?_, ?_, ?_, ?_⟩
  · intro fuel hfuel
    obtain ⟨pq, hpq, hc, -⟩ := mergeLoop_ok P fuel (pushLeaves P freqMap) (by omega) (by omega)
    exact ⟨pq, hpq, by rw [P.size_eq, hc]⟩
  · intro fuel hfuel
    exact mergeLoop_fuel P fuel _ (by omega)
  · intro pq hsize
    obtain ⟨left, right, hl, hr, hstep⟩ := mergeStep_of_size P pq hsize
    refine ⟨left, right, hl, hr, ?_⟩
    rw [P.size_eq, P.size_eq, mergeStep_card hstep]
  · obtain ⟨root, hroot, hb, hperm⟩ := buildHuffmanTree_built P freqMap hne
    refine ⟨root, hroot, ?_⟩
    have := built_internalCount hb
    rw [hperm.length_eq] at this
    omega

/-- The table `{a:4, b:3, c:2}` is not empty. -/
theorem mergeLoop_iterations_witness :
    (∀ fuel, [('a', (4 : Int)), ('b', 3), ('c', 2)].length - 1 ≤ fuel →
      ∃ pq, mergeLoop listQueue fuel (pushLeaves listQueue [('a', 4), ('b', 3), ('c', 2)]) =
        .ok pq ∧ listQueue.size pq = 1) ∧
    (∀ fuel, fuel < [('a', (4 : Int)), ('b', 3), ('c', 2)].length - 1 →
      mergeLoop listQueue fuel (pushLeaves listQueue [('a', 4), ('b', 3), ('c', 2)]) =
        .error .fuel) ∧
    (∀ pq : listQueue.Q, listQueue.size pq > 1 → ∃ left right,
      listQueue.top pq = some left ∧ listQueue.top (listQueue.pop pq) = some right ∧
      listQueue.size (listQueue.push (listQueue.pop (listQueue.pop pq))
        (.mk ',' (wrapInt32 (left.freq + right.freq)) left right)) + 1 = listQueue.size pq) ∧
    ∃ root, buildHuffmanTree listQueue [('a', 4), ('b', 3), ('c', 2)] = .ok root ∧
      internalCount root = [('a', (4 : Int)), ('b', 3), ('c', 2)].length - 1 :=
  mergeLoop_iterations listQueue [('a', 4), ('b', 3), ('c', 2)] (by decide)

theorem built_kraft {t : Node} (h : Built t) :
    ((leafPaths t).map (fun cp => ((1 : ℚ) / 2) ^ cp.2.length)).sum = 1 := by
  induction h with
  | leaf data freq => simp [Node.new, leafPaths]
  | parent left right hl _ _ ihl ihr =>
    have hne := built_ne_null hl
    simp only [leafPaths, hne, false_and, if_false, List.map_append, List.map_map,
      List.sum_append]
    have hstep : ∀ (b : String) (hb : b.length = 1) (xs : List (Char × String)),
        (xs.map ((fun cp : Char × String => ((1 : ℚ) / 2) ^ cp.2.length) ∘
          (fun cp => (cp.1, b ++ cp.2)))).sum =
        (xs.map (fun cp => ((1 : ℚ) / 2) ^ cp.2.length)).sum / 2 := by
      intro b hb xs
      induction xs with
      | nil => simp
      | cons x xs ih =>
        simp only [List.map_cons, List.sum_cons, ih, Function.comp, String.length_append, hb]
        rw [pow_add]
        ring
    rw [hstep "0" rfl, hstep "1" rfl, ihl, ihr]
    norm_num

/-- C20: completeness of the code (Kraft equality).  For every frequency table
with at least two distinct symbols, the codes generated from
`buildHuffmanTree` have Kraft sum exactly 1: the sum over the symbols of
`2^(-length(code))` is 1.  So no bit string can be added to the table as a new
code while keeping it prefix-free: every bit string has a code of the table as a
prefix or is a prefix of one. -/
theorem codes_kraft_equality (P : PriorityQueue) (freqMap : List (Char × Int))
    (hkeys : (freqMap.map Prod.fst).Nodup) (h2 : 2 ≤ freqMap.length) :
    ∃ root, buildHuffmanTree P freqMap = .ok root ∧
      kraftCodes freqMap (generateHuffmanCodes root "" CodeTable.empty) = 1 ∧
      ∀ w : String, (∀ b ∈ w.data, b = '0' ∨ b = '1') →
        ∃ x ∈ freqMap.map Prod.fst, ∃ cx,
          generateHuffmanCodes root "" CodeTable.empty x = some cx ∧
          (cx.data <+: w.data ∨ w.data <+: cx.data) := by
  have hne : freqMap ≠ [] := by
    rintro rfl
    simp at h2
  obtain ⟨root, hroot, hb, hperm, hnd, hiff, -⟩ := buildHuffmanTree_codes P freqMap hkeys hne
  have hk := built_kraft hb
  refine ⟨root, hroot, ?_, ?_⟩
  · -- the sum over the table is the sum over the leaves
    have h1 : kraftCodes freqMap (generateHuffmanCodes root "" CodeTable.empty) =
        (((leaves root).map Prod.fst).map (fun c =>
          ((1 : ℚ) / 2) ^ codeLength (generateHuffmanCodes root "" CodeTable.empty) c)).sum := by
      rw [kraftCodes, List.map_map]
      exact ((hperm.map _).sum_eq).symm
    have h3 : (leafPaths root).map ((fun c => ((1 : ℚ) / 2) ^
          codeLength (generateHuffmanCodes root "" CodeTable.empty) c) ∘ Prod.fst) =
        (leafPaths root).map (fun cp => ((1 : ℚ) / 2) ^ cp.2.length) := by
      apply List.map_congr_left
      intro cp hcp
      have := (hiff cp.1 cp.2).2 hcp
      simp [codeLength, this]
    rw [h1, ← leafPaths_keys, List.map_map, h3, hk]
  · intro w hw
    by_contra hcon
    push_neg at hcon
    have hfree : ∀ cp ∈ leafPaths root, ¬ w.data <+: cp.2.data ∧ ¬ cp.2.data <+: w.data := by
      intro cp hcp
      have hx : cp.1 ∈ freqMap.map Prod.fst := by
        have : cp.1 ∈ (leafPaths root).map Prod.fst := List.mem_map_of_mem _ hcp
        rw [leafPaths_keys] at this
        exact (hperm.map Prod.fst).mem_iff.1 this
      have := hcon cp.1 hx cp.2 ((hiff cp.1 cp.2).2 hcp)
      exact ⟨this.2, this.1⟩
    have hle := kraftWords_prefix_free (w.data :: (leafPaths root).map (fun cp => cp.2.data))
      (by
        intro u hu b hb
        rcases List.mem_cons.1 hu with rfl | hu
        · exact hw b hb
        · obtain ⟨cp, hcp, rfl⟩ := List.mem_map.1 hu
          exact leafPaths_binary root cp hcp b hb)
      (by
        rw [List.pairwise_cons]
        constructor
        · intro u hu
          obtain ⟨cp, hcp, rfl⟩ := List.mem_map.1 hu
          exact hfree cp hcp
        · rw [List.pairwise_map]
          exact leafPaths_pairwise root)
    have hsum : kraftWords (w.data :: (leafPaths root).map (fun cp => cp.2.data)) =
        ((1 : ℚ) / 2) ^ w.data.length + 1 := by
      have h4 : (leafPaths root).map ((fun u : List Char => ((1 : ℚ) / 2) ^ u.length) ∘
            (fun cp : Char × String => cp.2.data)) =
          (leafPaths root).map (fun cp => ((1 : ℚ) / 2) ^ cp.2.length) := rfl
      rw [kraftWords, List.map_cons, List.sum_cons, List.map_map, h4, hk]
    rw [hsum] at hle
    have hpos : (0 : ℚ) < ((1 : ℚ) / 2) ^ w.data.length := by positivity
    linarith

/-- The table `{a:4, b:3, c:2}` has three distinct symbols. -/
theorem codes_kraft_equality_witness :
    ∃ root, buildHuffmanTree listQueue [('a', 4), ('b', 3), ('c', 2)] = .ok root ∧
      kraftCodes [('a', 4), ('b', 3), ('c', 2)]
        (generateHuffmanCodes root "" CodeTable.empty) = 1 ∧
      ∀ w : String, (∀ b ∈ w.data, b = '0' ∨ b = '1') →
        ∃ x ∈ [('a', (4 : Int)), ('b', 3), ('c', 2)].map Prod.fst, ∃ cx,
          generateHuffmanCodes root "" CodeTable.empty x = some cx ∧
          (cx.data <+: w.data ∨ w.data <+: cx.data) :=
  codes_kraft_equality listQueue [('a', 4), ('b', 3), ('c', 2)] (by decide) (by decide)

theorem calculateCompressionRatio_one (L : FloatLibrary) (orignalStr encodedStr : String) :
    calculateCompressionRatio L orignalStr encodedStr 1 =
      .ok (if wrapInt32 encodedStr.length = 0 then .nan else .infinity) := by
  simp only [calculateCompressionRatio, L.ceilLog2_one, mul_zero]
  by_cases h : wrapInt32 encodedStr.length = 0
  · simp [h]
  · simp [h]

/-- C13, as the code has it: `calculateCompressionRatio` never fails with an
`InvalidInput` error and does not check `ch_length`.  With `ch_length = 1` the
baseline bit count is 0 and the call returns the quotient of the encoded bit
count by zero: not a number when the encoded bit count is 0, infinite
otherwise.  With `ch_length ≤ 0` the baseline is the conversion to `int` of a
`double` that is not finite, for which no result is defined. -/
theorem calculateCompressionRatio_unguarded (L : FloatLibrary)
    (orignalStr encodedStr : String) :
    (∀ ch_length, calculateCompressionRatio L orignalStr encodedStr ch_length ≠
      .error .InvalidInput) ∧
    calculateCompressionRatio L orignalStr encodedStr 1 =
      .ok (if wrapInt32 encodedStr.length = 0 then .nan else .infinity) ∧
    (encodedStr.length ≤ 2147483647 →
      calculateCompressionRatio L orignalStr encodedStr 1 =
        .ok (if encodedStr.length = 0 then .nan else .infinity)) ∧
    ∀ ch_length, ch_length ≤ 0 →
      calculateCompressionRatio L orignalStr encodedStr ch_length = .error .nonFiniteToInt := by
  refine ⟨?_, calculateCompressionRatio_one L orignalStr encodedStr, ?_, ?_⟩
  · intro ch_length
    unfold calculateCompressionRatio
    cases L.ceilLog2 ch_length with
    | none => simp
    | some bitsPerSymbol =>
      simp only
      split_ifs <;> simp
  · intro hlen
    rw [calculateCompressionRatio_one]
    have hw : wrapInt32 (encodedStr.length : Int) = encodedStr.length :=
      wrapInt32_of_range _ (by omega) (by omega)
    rw [hw]
    by_cases h : encodedStr.length = 0
    · simp [h]
    · have h' : ¬ ((encodedStr.length : Int) = 0) := by omega
      simp [h, h']
  · intro ch_length h
    simp [calculateCompressionRatio, L.ceilLog2_nonpos ch_length h]

/-- C13 fails as stated: with `ch_length = 1`, on the string `aaa` and its
encoding, the empty string, the call does not end in an `InvalidInput` error;
it returns the quotient of 0 by 0. -/
theorem calculateCompressionRatio_one_not_InvalidInput :
    calculateCompressionRatio exactLibrary "aaa" "" 1 ≠ .error .InvalidInput ∧
    calculateCompressionRatio exactLibrary "aaa" "" 1 = .ok .nan := by
  rw [calculateCompressionRatio_one]
  decide

end Huffman
